import Mathlib

set_option maxRecDepth 8000

/-!
# Verification of the imgui-combo-filter fuzzy-matching core

Shallow embedding of the fuzzy-matching subsystem of the
`khlorz/imgui-combo-filter` repository, together with proofs about the
claims of its specification.

Strings are modelled as lists of byte values (`List Nat`, entries `< 256`):
a C string is its sequence of non-NUL characters, the terminating NUL is
represented by the end of the list.

The embedded functions are:
* `FuzzySearchRecursive` / `FuzzySearchEX` — the recursive backtracking
  matcher of `src/v1/imgui-combo-filter.cpp`;
* `DefaultAutoSelectSearchCallback` — the single-best selector of
  `src/v1/imgui-combo-filter.h` (identical body in `src/v2/imgui-combo-filter.h`);
* `FuzzySearch` — the early single-best selector of `src/imgui-combo-filter.h`
  (no empty-pattern short-circuit, score-only tie-break);
* `DefaultComboFilterSearchCallback` — the filter/rank selector of
  `src/v1/imgui-combo-filter.h`;
* `fuzzy_score` / `fuzzy_search` — the single-pass scorer and selector of
  `src/unnamed/part_000` (same scorer in `src/v2/imgui-combo-filter.h`).
-/

namespace ComboFilter

/-- C `tolower` in the C locale, on byte values. -/
def tolower (c : Nat) : Nat := if 65 ≤ c ∧ c ≤ 90 then c + 32 else c

/-- C `islower` in the C locale, on byte values. -/
def islower (c : Nat) : Prop := 97 ≤ c ∧ c ≤ 122

/-- C `isupper` in the C locale, on byte values. -/
def isupper (c : Nat) : Prop := 65 ≤ c ∧ c ≤ 90

instance (c : Nat) : Decidable (islower c) := by unfold islower; infer_instance
instance (c : Nat) : Decidable (isupper c) := by unfold isupper; infer_instance

/-- Case-insensitive equality of two bytes, `tolower(a) == tolower(b)`. -/
def eqCI (a b : Nat) : Prop := tolower a = tolower b

instance (a b : Nat) : Decidable (eqCI a b) := by unfold eqCI; infer_instance

/-- Greedy case-insensitive subsequence test: does `p` occur, in order and
case-insensitively, inside `c`?  This mirrors the walk of the main loop of
`FuzzySearchRecursive` (`src/v1/imgui-combo-filter.cpp`, lines 50-82). -/
def subseqCI : List Nat → List Nat → Bool
  | [], _ => true
  | _ :: _, [] => false
  | p :: ps, c :: cs => if eqCI p c then subseqCI ps cs else subseqCI (p :: ps) cs

/-- Number of pattern characters consumed by the greedy walk of the main loop
of `FuzzySearchRecursive`. -/
def greedyCount : List Nat → List Nat → Nat
  | [], _ => 0
  | _ :: _, [] => 0
  | p :: ps, c :: cs =>
    if eqCI p c then greedyCount ps cs + 1 else greedyCount (p :: ps) cs

/-- The match offsets recorded by the greedy walk of the main loop of
`FuzzySearchRecursive`, starting at candidate position `pos`.  As in the
source, each offset is stored as an `unsigned char`
(`newMatches[nextMatch++] = (unsigned char)(src - strBegin)`), hence the
`% 256`. -/
def greedyOffsets : List Nat → List Nat → Nat → List Nat
  | [], _, _ => []
  | _ :: _, [], _ => []
  | p :: ps, c :: cs, pos =>
    if eqCI p c then pos % 256 :: greedyOffsets ps cs (pos + 1)
    else greedyOffsets (p :: ps) cs (pos + 1)

/-- Result of one `FuzzySearchRecursive` call: the returned boolean, the score
(`outScore`), the meaningful contents of the `newMatches` buffer, the value of
the by-reference `nextMatch` counter, and the value of the shared by-reference
`recursionCount`.  On a `false` return the C function leaves score and buffer
unspecified and callers ignore them; the model returns `0` / `[]` there. -/
structure RecResult where
  ok : Bool
  score : Int
  buf : List Nat
  next : Nat
  rc : Nat
deriving DecidableEq, Repr

/-- State at the bottom of the main loop of `FuzzySearchRecursive`:
remaining pattern, accumulated matches buffer, `recursiveMatch`,
`bestRecursiveScore`, `bestRecursiveMatches`, and the recursion counter. -/
structure LoopState where
  pat : List Nat
  cur : List Nat
  rm : Bool
  bSc : Int
  bBuf : List Nat
  rc : Nat
deriving DecidableEq, Repr

/-- Outcome of the main loop: either the early `return false` taken when the
matches buffer is exhausted (`nextMatch >= maxMatches`), or the state at the
bottom of the loop. -/
inductive LoopOut where
  | abort (rc : Nat)
  | done (st : LoopState)
deriving DecidableEq, Repr

/-- Per-offset neighbour bonus of the scoring block of `FuzzySearchRecursive`
(lines 129-147): camel-case bonus 30, separator bonus 30, first-letter
bonus 15.  `strBegin.getD idx 0` is `strBegin[currIdx]`; as in the source the
index is the stored (possibly truncated) byte. -/
def elemBonus (strBegin : List Nat) (idx : Nat) : Int :=
  if 0 < idx then
    (if islower (strBegin.getD (idx - 1) 0) ∧ isupper (strBegin.getD idx 0)
      then 30 else 0) +
    (if strBegin.getD (idx - 1) 0 = 95 ∨ strBegin.getD (idx - 1) 0 = 32
      then 30 else 0)
  else 15

/-- Ordering bonuses for the offsets after the first, with `prev` the previous
offset: sequential bonus 15 when `currIdx == prevIdx + 1`, plus the neighbour
bonuses. -/
def orderBonusGo (strBegin : List Nat) (prev : Nat) : List Nat → Int
  | [] => 0
  | idx :: rest =>
    (if idx = prev + 1 then 15 else 0) + elemBonus strBegin idx +
      orderBonusGo strBegin idx rest

/-- The full ordering-bonus loop of `FuzzySearchRecursive` (lines 117-148). -/
def orderBonus (strBegin : List Nat) : List Nat → Int
  | [] => 0
  | idx :: rest => elemBonus strBegin idx + orderBonusGo strBegin idx rest

/-- The score computed by `FuzzySearchRecursive` on a successful match with
matches buffer `cur` (lines 103-148): base 100, leading-letter penalty
`max (-5 * newMatches[0]) (-15)`, unmatched-letter penalty
`-(len - nextMatch)`, plus the ordering bonuses. -/
def scoreOf (strBegin : List Nat) (cur : List Nat) : Int :=
  100 + max (-5 * (cur.headD 0 : Int)) (-15)
    - ((strBegin.length : Int) - (cur.length : Int))
    + orderBonus strBegin cur

/-- The bottom of `FuzzySearchRecursive` (lines 84-165): decide `matched`,
compute the score, and pick the better of the greedy match and the best
recursive match.  On the recursive branch the source copies `maxMatches`
bytes of `bestRecursiveMatches` into the caller's buffer, modelled by
`take maxM`. -/
def recFinish (strBegin : List Nat) (maxM : Nat) : LoopOut → RecResult
  | .abort r => ⟨false, 0, [], 0, r⟩
  | .done st =>
    let matched := st.pat.isEmpty
    let sc := scoreOf strBegin st.cur
    if st.rm = true ∧ (matched = false ∨ sc < st.bSc) then
      ⟨true, st.bSc, st.bBuf.take maxM, st.cur.length, st.rc⟩
    else if matched = true then
      ⟨true, sc, st.cur, st.cur.length, st.rc⟩
    else
      ⟨false, 0, [], st.cur.length, st.rc⟩

/-- The main loop of `FuzzySearchRecursive` (lines 48-82), walking `pattern`
and `src` together.  `pos` is `src - strBegin`, `cur` the meaningful contents
of `newMatches` (its length is `nextMatch`), `rc` the shared recursion
counter, `rm`/`bSc`/`bBuf` the `recursiveMatch` bookkeeping.  On a
case-insensitive character match the buffer bound is checked, the recursive
"skip this match" call is made (inlined body of `FuzzySearchRecursive` on the
tail, with its own 256-byte buffer bound), its result folded into the best
recursive match, and the offset recorded. -/
def fuzzyLoop (pattern src : List Nat) (pos : Nat) (strBegin : List Nat)
    (cur : List Nat) (maxM rc limit : Nat) (rm : Bool) (bSc : Int)
    (bBuf : List Nat) : LoopOut :=
  match src, pattern with
  | c :: cs, p :: ps =>
    if eqCI p c then
      if maxM ≤ cur.length then .abort rc
      else
        let child : RecResult :=
          if limit ≤ rc + 1 then ⟨false, 0, [], cur.length, rc + 1⟩
          else if (p :: ps).isEmpty = true ∨ cs.isEmpty = true then
            ⟨false, 0, [], cur.length, rc + 1⟩
          else recFinish strBegin 256
            (fuzzyLoop (p :: ps) cs (pos + 1) strBegin cur 256 (rc + 1) limit
              false 0 [])
        let upd := child.ok = true ∧ (rm = false ∨ bSc < child.score)
        fuzzyLoop ps cs (pos + 1) strBegin (cur ++ [pos % 256]) maxM child.rc
          limit (rm || child.ok) (if upd then child.score else bSc)
          (if upd then child.buf else bBuf)
    else fuzzyLoop (p :: ps) cs (pos + 1) strBegin cur maxM rc limit rm bSc bBuf
  | _, _ => .done ⟨pattern, cur, rm, bSc, bBuf, rc⟩

/-- `FuzzySearchRecursive` of `src/v1/imgui-combo-filter.cpp` (lines 30-166):
increment the shared recursion counter, check the recursion limit and string
ends, run the main loop and finish. -/
def FuzzySearchRecursive (pattern src : List Nat) (pos : Nat)
    (strBegin : List Nat) (cur : List Nat) (maxM rc limit : Nat) : RecResult :=
  if limit ≤ rc + 1 then ⟨false, 0, [], cur.length, rc + 1⟩
  else if pattern.isEmpty = true ∨ src.isEmpty = true then
    ⟨false, 0, [], cur.length, rc + 1⟩
  else recFinish strBegin maxM
    (fuzzyLoop pattern src pos strBegin cur maxM (rc + 1) limit false 0 [])

/-- Observable result of `FuzzySearchEX`: the boolean, `out_score`, the first
`out_matches` entries of the matches buffer, and `out_matches`. -/
structure SearchResult where
  ok : Bool
  score : Int
  outMatches : List Nat
  count : Nat
deriving DecidableEq, Repr

/-- `FuzzySearchEX(pattern, haystack, out_score, matches, max_matches,
out_matches)` of `src/v1/imgui-combo-filter.cpp` (lines 15-21): recursion
count 0, recursion limit 10. -/
def FuzzySearchEX (pattern haystack : List Nat) (maxM : Nat) : SearchResult :=
  let r := FuzzySearchRecursive pattern haystack 0 haystack [] maxM 0 10
  ⟨r.ok, r.score, r.buf.take r.next, r.next⟩

/-- The `FuzzySearchEX(pattern, haystack, out_score)` overload
(lines 23-28), which supplies a 256-byte matches buffer. -/
def FuzzySearchEXSimple (pattern haystack : List Nat) : SearchResult :=
  FuzzySearchEX pattern haystack 256

/-!
## Single-best selectors built on `FuzzySearchEX`

A candidate collection is modelled by its element count and a getter
`f : Nat → List Nat` returning the text of the candidate at an index
(`ComboItemGetterCallback`).  The selectors scan indices `0, …, count-1`;
the state is `none` before the first match (the first loop of the source)
and `some (best_item, best_score, prevmatch_count)` afterwards.
-/

/-- One full scan of `DefaultAutoSelectSearchCallback`
(`src/v1/imgui-combo-filter.h`, lines 201-217; the identical body is at
`src/v2/imgui-combo-filter.h`, lines 184-200).  A new match replaces the
current best when
`(score > best_score && prevmatch_count >= match_count) ||
(score == best_score && match_count > prevmatch_count)`. -/
def autoScan (f : Nat → List Nat) (str : List Nat) :
    Nat → Nat → Option (Nat × Int × Nat) → Option (Nat × Int × Nat)
  | 0, _, st => st
  | n + 1, i, st =>
    let r := FuzzySearchEX str (f i) 128
    let st' :=
      match st with
      | none => if r.ok = true then some (i, r.score, r.count) else st
      | some (b, bs, pmc) =>
        if r.ok = true ∧ ((bs < r.score ∧ r.count ≤ pmc) ∨
            (r.score = bs ∧ pmc < r.count)) then
          some (i, r.score, r.count)
        else some (b, bs, pmc)
    autoScan f str n (i + 1) st'

/-- `DefaultAutoSelectSearchCallback` of `src/v1/imgui-combo-filter.h`
(lines 185-220): empty search string returns -1, otherwise the scan with
`max_matches = 128`. -/
def DefaultAutoSelectSearchCallback (count : Nat) (f : Nat → List Nat)
    (str : List Nat) : Int :=
  if str = [] then -1
  else
    match autoScan f str count 0 none with
    | none => -1
    | some (b, _, _) => (b : Int)

/-- The scan of the single-best selector as the specification describes its
replacement rule: "a new candidate only replaces the current best if its
score is strictly greater, OR its score is equal and it has a higher
match count".  Used to compare the source's replacement condition with the
claimed one. -/
def autoScanSpec (f : Nat → List Nat) (str : List Nat) :
    Nat → Nat → Option (Nat × Int × Nat) → Option (Nat × Int × Nat)
  | 0, _, st => st
  | n + 1, i, st =>
    let r := FuzzySearchEX str (f i) 128
    let st' :=
      match st with
      | none => if r.ok = true then some (i, r.score, r.count) else st
      | some (b, bs, pmc) =>
        if r.ok = true ∧ (bs < r.score ∨ (r.score = bs ∧ pmc < r.count)) then
          some (i, r.score, r.count)
        else some (b, bs, pmc)
    autoScanSpec f str n (i + 1) st'

/-- The single-best selector with the specification's replacement rule in
place of the source's one. -/
def AutoSelectSpecCallback (count : Nat) (f : Nat → List Nat)
    (str : List Nat) : Int :=
  if str = [] then -1
  else
    match autoScanSpec f str count 0 none with
    | none => -1
    | some (b, _, _) => (b : Int)

/-- The scan of the early selector variant `FuzzySearch` of
`src/imgui-combo-filter.h` (lines 130-146): same as
`DefaultAutoSelectSearchCallback` but the replacement condition is only
`score > best_score && prevmatch_count >= match_count`. -/
def fuzzySearchScan (f : Nat → List Nat) (str : List Nat) :
    Nat → Nat → Option (Nat × Int × Nat) → Option (Nat × Int × Nat)
  | 0, _, st => st
  | n + 1, i, st =>
    let r := FuzzySearchEX str (f i) 128
    let st' :=
      match st with
      | none => if r.ok = true then some (i, r.score, r.count) else st
      | some (b, bs, pmc) =>
        if r.ok = true ∧ (bs < r.score ∧ r.count ≤ pmc) then
          some (i, r.score, r.count)
        else some (b, bs, pmc)
    fuzzySearchScan f str n (i + 1) st'

/-- `FuzzySearch` of `src/imgui-combo-filter.h` (lines 117-149), the early
single-best selector: no empty-pattern short-circuit. -/
def FuzzySearch (count : Nat) (f : Nat → List Nat) (str : List Nat) : Int :=
  match fuzzySearchScan f str count 0 none with
  | none => -1
  | some (b, _, _) => (b : Int)

/-!
## Filter/rank selector
-/

/-- Modelled from the spec: `SortFilterResultsDescending` is only declared in
`src/v1/imgui-combo-filter.h` (line 60) and called from the filter callback;
its definition is not part of the sources.  The spec requires "the result
sequence is sorted by descending score; a stable sort is required so that
candidates with equal score retain their relative original-index order",
modelled here as a stable insertion sort on the `(Index, Score)` pairs. -/
def insertDesc (x : Nat × Int) : List (Nat × Int) → List (Nat × Int)
  | [] => [x]
  | y :: ys => if x.2 < y.2 then y :: insertDesc x ys else x :: y :: ys

/-- Modelled from the spec: stable sort of the filter results by descending
score (see `insertDesc`). -/
def SortFilterResultsDescending : List (Nat × Int) → List (Nat × Int)
  | [] => []
  | x :: xs => insertDesc x (SortFilterResultsDescending xs)

/-- The scan of `DefaultComboFilterSearchCallback`
(`src/v1/imgui-combo-filter.h`, lines 232-236): every matching candidate is
appended as an `(index, score)` pair, in index order. -/
def comboFilterScan (count : Nat) (f : Nat → List Nat) (str : List Nat) :
    List (Nat × Int) :=
  (List.range count).filterMap fun i =>
    let r := FuzzySearchEX str (f i) 128
    if r.ok = true then some (i, r.score) else none

/-- `DefaultComboFilterSearchCallback` of `src/v1/imgui-combo-filter.h`
(lines 222-239): scan all candidates with `max_matches = 128`, then sort the
results descending. -/
def DefaultComboFilterSearchCallback (count : Nat) (f : Nat → List Nat)
    (str : List Nat) : List (Nat × Int) :=
  SortFilterResultsDescending (comboFilterScan count f str)

/-!
## The single-pass scorer and selector of `src/unnamed/part_000`

`fuzzy_score(str1, str2, score)` walks the candidate `str1` against the
pattern `str2`.  Its match branch reads `str1[-1]`, the byte immediately
before the candidate buffer; a candidate is therefore modelled together
with that preceding byte.  `str1[1]` at the last character reads the NUL
terminator, modelled by `headD _ 0`.  `had_separator = (str1[-1] <= 32)`
compares a (signed) `char`, so bytes `128-255` compare as negative values.
-/

/-- Value of a byte read through a signed `char`. -/
def sByte (b : Nat) : Int := if b < 128 then (b : Int) else (b : Int) - 256

/-- The loop of `fuzzy_score` (`src/unnamed/part_000`, lines 55-71, same code
at `src/v2/imgui-combo-filter.h`, lines 492-508).  `prev` is the byte before
the current candidate position (initially the byte before the buffer),
`consecutive`, `maxerrors` and `score` the loop variables. -/
def fuzzyScoreGo (prev : Nat) (consecutive : Nat) (maxerrors score : Int) :
    List Nat → List Nat → Bool × Int
  | c1 :: r1, c2 :: r2 =>
    let isLeading := c1 &&& 64 ≠ 0 ∧ r1.headD 0 &&& 64 = 0
    if c1 &&& 0xDF = c2 &&& 0xDF then
      let hadSeparator := sByte prev ≤ 32
      let x : Int := if hadSeparator ∨ isLeading then 10 else consecutive * 5
      fuzzyScoreGo c1 1 maxerrors (score + x) r1 r2
    else
      let y : Int := if isLeading then -3 else 0
      fuzzyScoreGo c1 0 (maxerrors + y) (score - 1) r1 (c2 :: r2)
  | _, s2 => (s2.isEmpty, score + max maxerrors (-9))

/-- `fuzzy_score` of `src/unnamed/part_000` (lines 47-75): `pre` is the byte
preceding the candidate buffer `str1`, `str2` the pattern.  Returns the
boolean result and the score output parameter. -/
def fuzzy_score (pre : Nat) (str1 str2 : List Nat) : Bool × Int :=
  if str2.isEmpty = true then (str1.isEmpty, 0)
  else fuzzyScoreGo pre 0 0 0 str1 str2

/-- The scan of `fuzzy_search` (`src/unnamed/part_000`, lines 77-99):
state `none` before the first match (first loop), then replace only on a
strictly greater score.  `f` returns, for each index, the byte preceding the
candidate buffer together with the candidate text. -/
def fuzzySearchPartScan (f : Nat → Nat × List Nat) (str : List Nat) :
    Nat → Nat → Option (Nat × Int) → Option (Nat × Int)
  | 0, _, st => st
  | n + 1, i, st =>
    let r := fuzzy_score (f i).1 (f i).2 str
    let st' :=
      match st with
      | none => if r.1 = true then some (i, r.2) else st
      | some (b, smax) =>
        if r.1 = true ∧ smax < r.2 then some (i, r.2) else some (b, smax)
    fuzzySearchPartScan f str n (i + 1) st'

/-- `fuzzy_search` of `src/unnamed/part_000` (lines 45-100), the score-only
single-best selector over the single-pass scorer. -/
def fuzzy_search (count : Nat) (f : Nat → Nat × List Nat)
    (str : List Nat) : Int :=
  match fuzzySearchPartScan f str count 0 none with
  | none => -1
  | some (b, _) => (b : Int)

/-!
## Further definitions used by the verification: valid embeddings,
pattern side conditions, the ranking order, and the flat-bonus scorer
-/

/-- `Emb s p e lo` states that the offset list `e` is a valid case-insensitive
embedding of the pattern `p` into the candidate `s`: one offset per pattern
character, strictly increasing starting at or after `lo`, each a valid index
into `s` whose character is case-insensitively equal to the corresponding
pattern character. -/
def Emb (s : List Nat) : List Nat → List Nat → Nat → Prop
  | [], [], _ => True
  | p :: ps, o :: os, lo =>
    lo ≤ o ∧ o < s.length ∧ eqCI p (s.getD o 0) ∧ Emb s ps os (o + 1)
  | _, _, _ => False

/-- A pattern with no camel-case transition and no separator characters
before its last position: no matched character of a candidate identical to
the pattern can earn the camel-case or separator bonus. -/
def plainP (P : List Nat) : Prop :=
  ∀ i, i < P.length - 1 →
    ¬ (islower (P.getD i 0) ∧ isupper (P.getD (i + 1) 0)) ∧
    P.getD i 0 ≠ 32 ∧ P.getD i 0 ≠ 95

instance (P : List Nat) : Decidable (plainP P) := by
  unfold plainP
  exact Nat.decidableBallLT _ _

/-- The ranking order on filter results: strictly higher score first, ties by
original index. -/
def rankR (a b : Nat × Int) : Prop := b.2 < a.2 ∨ (a.2 = b.2 ∧ a.1 < b.1)

/-- The loop of `fuzzy_score` with the consecutive-run counter replaced by
what it actually encodes: since the source executes `consecutive = 1` (not an
increment) after every match, the counter is `1` exactly when the previous
candidate character was matched, and the non-separator non-leading match
bonus is a constant `+5` per such character — it does not grow with the run
length.  This definition makes that reading explicit, for comparison with
`fuzzyScoreGo`. -/
def fuzzyScoreGoFlat (prev : Nat) (pm : Bool) (maxerrors score : Int) :
    List Nat → List Nat → Bool × Int
  | c1 :: r1, c2 :: r2 =>
    let isLeading := c1 &&& 64 ≠ 0 ∧ r1.headD 0 &&& 64 = 0
    if c1 &&& 0xDF = c2 &&& 0xDF then
      let hadSeparator := sByte prev ≤ 32
      let x : Int := if hadSeparator ∨ isLeading then 10
        else if pm then 5 else 0
      fuzzyScoreGoFlat c1 true maxerrors (score + x) r1 r2
    else
      let y : Int := if isLeading then -3 else 0
      fuzzyScoreGoFlat c1 false (maxerrors + y) (score - 1) r1 (c2 :: r2)
  | _, s2 => (s2.isEmpty, score + max maxerrors (-9))

/-- `fuzzy_score` with the flat (+5 after a match, +0 at a run start)
reading of the consecutive-run bonus. -/
def fuzzy_score_flat (pre : Nat) (str1 str2 : List Nat) : Bool × Int :=
  if str2.isEmpty = true then (str1.isEmpty, 0)
  else fuzzyScoreGoFlat pre false 0 0 str1 str2


/-! ### The greedy walk and case-insensitive subsequence containment -/

/-- The greedy walk decides case-insensitive subsequence containment. -/
theorem subseqCI_iff_sublist : ∀ (c p : List Nat),
    subseqCI p c = true ↔ List.Sublist (p.map tolower) (c.map tolower) := by
  intro c
  induction c with
  | nil =>
    intro p
    cases p with
    | nil => simp [subseqCI]
    | cons x xs => simp [subseqCI]
  | cons c0 cs ih =>
    intro p
    cases p with
    | nil => simp [subseqCI, List.nil_sublist]
    | cons p0 ps =>
      by_cases h : eqCI p0 c0
      · have he : tolower p0 = tolower c0 := h
        simp only [subseqCI, if_pos h, List.map_cons, he]
        rw [List.cons_sublist_cons]
        exact ih ps
      · have hne : tolower p0 ≠ tolower c0 := h
        simp only [subseqCI, if_neg h, List.map_cons]
        rw [ih (p0 :: ps)]
        constructor
        · intro hs
          exact List.Sublist.cons (tolower c0) (by simpa using hs)
        · intro hs
          rcases List.sublist_cons_iff.mp hs with h2 | ⟨r, hr, _⟩
          · simpa using h2
          · exact absurd (by simpa using congrArg List.head? hr) hne

theorem subseqCI_length_le {p c : List Nat} (h : subseqCI p c = true) :
    p.length ≤ c.length := by
  have := ((subseqCI_iff_sublist c p).mp h).length_le
  simpa using this

theorem subseqCI_of_tail {p0 : Nat} {ps t : List Nat}
    (h : subseqCI (p0 :: ps) t = true) : subseqCI ps t = true := by
  rw [subseqCI_iff_sublist] at h ⊢
  exact ((List.sublist_cons_self (tolower p0) (ps.map tolower)).trans
    (by simpa using h))

theorem subseqCI_cons_right {p : List Nat} {c0 : Nat} {cs : List Nat}
    (h : subseqCI p cs = true) : subseqCI p (c0 :: cs) = true := by
  rw [subseqCI_iff_sublist] at h ⊢
  exact h.trans (by simp [List.sublist_cons_self])

theorem greedyCount_le : ∀ (c p : List Nat), greedyCount p c ≤ p.length := by
  intro c
  induction c with
  | nil => intro p; cases p <;> simp [greedyCount]
  | cons c0 cs ih =>
    intro p
    cases p with
    | nil => simp [greedyCount]
    | cons p0 ps =>
      by_cases h : eqCI p0 c0
      · simp only [greedyCount, if_pos h, List.length_cons]
        exact Nat.succ_le_succ (ih ps)
      · simp only [greedyCount, if_neg h]
        exact (ih (p0 :: ps)).trans (by simp)

theorem subseqCI_iff_greedyCount : ∀ (c p : List Nat),
    subseqCI p c = true ↔ greedyCount p c = p.length := by
  intro c
  induction c with
  | nil =>
    intro p
    cases p with
    | nil => simp [subseqCI, greedyCount]
    | cons x xs => simp [subseqCI, greedyCount]
  | cons c0 cs ih =>
    intro p
    cases p with
    | nil => simp [subseqCI, greedyCount]
    | cons p0 ps =>
      by_cases h : eqCI p0 c0
      · simp only [subseqCI, greedyCount, if_pos h, List.length_cons]
        rw [ih ps]
        omega
      · simp only [subseqCI, greedyCount, if_neg h]
        rw [ih (p0 :: ps)]

theorem greedyOffsets_length : ∀ (c p : List Nat) (pos : Nat),
    (greedyOffsets p c pos).length = greedyCount p c := by
  intro c
  induction c with
  | nil => intro p pos; cases p <;> simp [greedyOffsets, greedyCount]
  | cons c0 cs ih =>
    intro p pos
    cases p with
    | nil => simp [greedyOffsets, greedyCount]
    | cons p0 ps =>
      by_cases h : eqCI p0 c0
      · simp only [greedyOffsets, greedyCount, if_pos h, List.length_cons, ih]
      · simp only [greedyOffsets, greedyCount, if_neg h, ih]

/-! ### Equation lemmas for the matcher -/

theorem recFinish_abort (s : List Nat) (m r : Nat) :
    recFinish s m (.abort r) = ⟨false, 0, [], 0, r⟩ := rfl

theorem recFinish_done (s : List Nat) (m : Nat) (st : LoopState) :
    recFinish s m (.done st) =
      if st.rm = true ∧ (st.pat.isEmpty = false ∨ scoreOf s st.cur < st.bSc) then
        ⟨true, st.bSc, st.bBuf.take m, st.cur.length, st.rc⟩
      else if st.pat.isEmpty = true then
        ⟨true, scoreOf s st.cur, st.cur, st.cur.length, st.rc⟩
      else ⟨false, 0, [], st.cur.length, st.rc⟩ := rfl

theorem fuzzyLoop_nil_src (pattern : List Nat) (pos : Nat) (strBegin cur : List Nat)
    (maxM rc limit : Nat) (rm : Bool) (bSc : Int) (bBuf : List Nat) :
    fuzzyLoop pattern [] pos strBegin cur maxM rc limit rm bSc bBuf =
      .done ⟨pattern, cur, rm, bSc, bBuf, rc⟩ := by
  cases pattern <;> rfl

theorem fuzzyLoop_nil_pat (src : List Nat) (pos : Nat) (strBegin cur : List Nat)
    (maxM rc limit : Nat) (rm : Bool) (bSc : Int) (bBuf : List Nat) :
    fuzzyLoop [] src pos strBegin cur maxM rc limit rm bSc bBuf =
      .done ⟨[], cur, rm, bSc, bBuf, rc⟩ := by
  cases src <;> rfl

theorem fuzzyLoop_cons_abort {p c : Nat} {ps cs : List Nat} (pos : Nat)
    (strBegin cur : List Nat) {maxM : Nat} (rc limit : Nat) (rm : Bool)
    (bSc : Int) (bBuf : List Nat) (h : eqCI p c) (hov : maxM ≤ cur.length) :
    fuzzyLoop (p :: ps) (c :: cs) pos strBegin cur maxM rc limit rm bSc bBuf =
      .abort rc := by
  unfold fuzzyLoop
  rw [if_pos h, if_pos hov]

theorem fuzzyLoop_cons_match {p c : Nat} {ps cs : List Nat} (pos : Nat)
    (strBegin cur : List Nat) {maxM : Nat} (rc limit : Nat) (rm : Bool)
    (bSc : Int) (bBuf : List Nat) (h : eqCI p c) (hov : ¬ maxM ≤ cur.length) :
    fuzzyLoop (p :: ps) (c :: cs) pos strBegin cur maxM rc limit rm bSc bBuf =
      fuzzyLoop ps cs (pos + 1) strBegin (cur ++ [pos % 256]) maxM
        (FuzzySearchRecursive (p :: ps) cs (pos + 1) strBegin cur 256 rc
          limit).rc limit
        (rm || (FuzzySearchRecursive (p :: ps) cs (pos + 1) strBegin cur 256
          rc limit).ok)
        (if (FuzzySearchRecursive (p :: ps) cs (pos + 1) strBegin cur 256 rc
            limit).ok = true ∧ (rm = false ∨ bSc <
            (FuzzySearchRecursive (p :: ps) cs (pos + 1) strBegin cur 256 rc
              limit).score)
          then (FuzzySearchRecursive (p :: ps) cs (pos + 1) strBegin cur 256
            rc limit).score else bSc)
        (if (FuzzySearchRecursive (p :: ps) cs (pos + 1) strBegin cur 256 rc
            limit).ok = true ∧ (rm = false ∨ bSc <
            (FuzzySearchRecursive (p :: ps) cs (pos + 1) strBegin cur 256 rc
              limit).score)
          then (FuzzySearchRecursive (p :: ps) cs (pos + 1) strBegin cur 256
            rc limit).buf else bBuf) := by
  conv_lhs => unfold fuzzyLoop
  rw [if_pos h, if_neg hov]
  rfl

theorem fuzzyLoop_cons_nomatch {p c : Nat} {ps cs : List Nat} (pos : Nat)
    (strBegin cur : List Nat) (maxM rc limit : Nat) (rm : Bool)
    (bSc : Int) (bBuf : List Nat) (h : ¬ eqCI p c) :
    fuzzyLoop (p :: ps) (c :: cs) pos strBegin cur maxM rc limit rm bSc bBuf =
      fuzzyLoop (p :: ps) cs (pos + 1) strBegin cur maxM rc limit rm bSc bBuf := by
  conv_lhs => unfold fuzzyLoop
  rw [if_neg h]

/-! ### Behaviour of the main loop -/

/-- Behaviour of the main loop of `FuzzySearchRecursive`: it takes the early
buffer-overflow exit exactly when the greedy walk makes at least one match at
a buffer size of `maxM` or more; otherwise it ends with the greedy remainder
of the pattern, the greedy offsets appended to the buffer, and a
`recursiveMatch` flag that can only be set if it was set on entry or the
remaining pattern is a case-insensitive subsequence of the remaining
source. -/
theorem fuzzyLoop_spec : ∀ (n : Nat) (src : List Nat), src.length ≤ n →
    ∀ (pattern : List Nat) (pos : Nat) (strBegin cur : List Nat)
      (maxM rc limit : Nat) (rm : Bool) (bSc : Int) (bBuf : List Nat),
    (0 < greedyCount pattern src →
      maxM < cur.length + greedyCount pattern src →
      ∃ r, fuzzyLoop pattern src pos strBegin cur maxM rc limit rm bSc bBuf =
        .abort r) ∧
    ((greedyCount pattern src = 0 ∨
        cur.length + greedyCount pattern src ≤ maxM) →
      ∃ st, fuzzyLoop pattern src pos strBegin cur maxM rc limit rm bSc bBuf =
          .done st ∧
        st.pat = pattern.drop (greedyCount pattern src) ∧
        st.cur = cur ++ greedyOffsets pattern src pos ∧
        (st.rm = true → rm = true ∨ subseqCI pattern src = true)) := by
  intro n
  induction n with
  | zero =>
    intro src hle pattern pos strBegin cur maxM rc limit rm bSc bBuf
    have hsrc : src = [] := List.length_eq_zero.mp (Nat.le_zero.mp hle)
    subst hsrc
    have hg : greedyCount pattern [] = 0 := by cases pattern <;> simp [greedyCount]
    constructor
    · intro hpos _
      omega
    · intro _
      refine ⟨_, fuzzyLoop_nil_src _ _ _ _ _ _ _ _ _ _, ?_, ?_, ?_⟩
      · rw [hg]; simp
      · have : greedyOffsets pattern [] pos = [] := by
          cases pattern <;> simp [greedyOffsets]
        rw [this]; simp
      · intro h; exact Or.inl h
  | succ n ih =>
    intro src hle pattern pos strBegin cur maxM rc limit rm bSc bBuf
    cases src with
    | nil =>
      have hg : greedyCount pattern [] = 0 := by cases pattern <;> simp [greedyCount]
      constructor
      · intro hpos _
        omega
      · intro _
        refine ⟨_, fuzzyLoop_nil_src _ _ _ _ _ _ _ _ _ _, ?_, ?_, ?_⟩
        · rw [hg]; simp
        · have : greedyOffsets pattern [] pos = [] := by
            cases pattern <;> simp [greedyOffsets]
          rw [this]; simp
        · intro h; exact Or.inl h
    | cons c cs =>
      have hcs : cs.length ≤ n := by simpa using Nat.succ_le_succ_iff.mp hle
      cases pattern with
      | nil =>
        constructor
        · intro hpos _
          exfalso
          simp [greedyCount] at hpos
        · intro _
          refine ⟨_, fuzzyLoop_nil_pat _ _ _ _ _ _ _ _ _ _, ?_, ?_, ?_⟩
          · simp [greedyCount]
          · simp [greedyOffsets]
          · intro h; exact Or.inl h
      | cons p ps =>
        by_cases h : eqCI p c
        · -- match step
          have hg : greedyCount (p :: ps) (c :: cs) = greedyCount ps cs + 1 := by
            simp [greedyCount, if_pos h]
          have hoffs : greedyOffsets (p :: ps) (c :: cs) pos =
              pos % 256 :: greedyOffsets ps cs (pos + 1) := by
            simp [greedyOffsets, if_pos h]
          by_cases hov : maxM ≤ cur.length
          · constructor
            · intro _ _
              exact ⟨rc, fuzzyLoop_cons_abort pos strBegin cur rc limit rm bSc bBuf h hov⟩
            · intro hroom
              exfalso
              rw [hg] at hroom
              omega
          · rw [fuzzyLoop_cons_match pos strBegin cur rc limit rm bSc bBuf h hov]
            set child := FuzzySearchRecursive (p :: ps) cs (pos + 1) strBegin cur
              256 rc limit with hchild
            -- the recursive-branch success implies subsequence containment
            have child_subseq : child.ok = true → subseqCI (p :: ps) cs = true := by
              intro hok
              rw [hchild] at hok
              unfold FuzzySearchRecursive at hok
              by_cases h1 : limit ≤ rc + 1
              · rw [if_pos h1] at hok; simp at hok
              · rw [if_neg h1] at hok
                by_cases h2 : (p :: ps).isEmpty = true ∨ cs.isEmpty = true
                · rw [if_pos h2] at hok; simp at hok
                · rw [if_neg h2] at hok
                  rcases ih cs hcs (p :: ps) (pos + 1) strBegin cur 256 (rc + 1)
                    limit false 0 [] with ⟨habort, hdone⟩
                  by_cases hroom : greedyCount (p :: ps) cs = 0 ∨
                      cur.length + greedyCount (p :: ps) cs ≤ 256
                  · rcases hdone hroom with ⟨st, heq, hpat, hcur, hrm⟩
                    rw [heq, recFinish_done] at hok
                    by_cases h3 : st.rm = true ∧ (st.pat.isEmpty = false ∨
                        scoreOf strBegin st.cur < st.bSc)
                    · rcases hrm h3.1 with h4 | h4
                      · simp at h4
                      · exact h4
                    · rw [if_neg h3] at hok
                      by_cases h4 : st.pat.isEmpty = true
                      · have h7 : (p :: ps).drop (greedyCount (p :: ps) cs) = [] := by
                          rw [← hpat]
                          exact List.isEmpty_iff.mp h4
                        have h6 := List.drop_eq_nil_iff.mp h7
                        have h8 : greedyCount (p :: ps) cs = (p :: ps).length :=
                          Nat.le_antisymm (greedyCount_le _ _) h6
                        exact (subseqCI_iff_greedyCount cs (p :: ps)).mpr h8
                      · rw [if_neg h4] at hok
                        simp at hok
                  · push_neg at hroom
                    rcases habort (by omega) (by omega) with ⟨r, heq⟩
                    rw [heq, recFinish_abort] at hok
                    simp at hok
            -- continue with the tail loop
            rcases ih cs hcs ps (pos + 1) strBegin (cur ++ [pos % 256]) maxM
              child.rc limit (rm || child.ok)
              (if child.ok = true ∧ (rm = false ∨ bSc < child.score)
                then child.score else bSc)
              (if child.ok = true ∧ (rm = false ∨ bSc < child.score)
                then child.buf else bBuf) with ⟨habort, hdone⟩
            have hlen : (cur ++ [pos % 256]).length = cur.length + 1 := by simp
            constructor
            · intro _ hneed
              rw [hg] at hneed
              have hgpos : 0 < greedyCount ps cs := by omega
              apply habort hgpos
              omega
            · intro hroom
              rw [hg] at hroom
              rcases hdone (by rw [hlen]; omega) with ⟨st, heq, hpat, hcur, hrm⟩
              refine ⟨st, heq, ?_, ?_, ?_⟩
              · rw [hpat, hg]
                simp
              · rw [hcur, hoffs]
                simp
              · intro hst
                rcases hrm hst with h1 | h1
                · rcases Bool.or_eq_true_iff.mp h1 with h2 | h2
                  · exact Or.inl h2
                  · refine Or.inr ?_
                    have h3 := subseqCI_of_tail (child_subseq h2)
                    simp only [subseqCI, if_pos h]
                    exact h3
                · refine Or.inr ?_
                  simp only [subseqCI, if_pos h]
                  exact h1
        · -- mismatch step
          have hg : greedyCount (p :: ps) (c :: cs) = greedyCount (p :: ps) cs := by
            simp [greedyCount, if_neg h]
          have hoffs : greedyOffsets (p :: ps) (c :: cs) pos =
              greedyOffsets (p :: ps) cs (pos + 1) := by
            simp [greedyOffsets, if_neg h]
          rw [fuzzyLoop_cons_nomatch pos strBegin cur maxM rc limit rm bSc bBuf h]
          rcases ih cs hcs (p :: ps) (pos + 1) strBegin cur maxM rc limit rm bSc
            bBuf with ⟨habort, hdone⟩
          constructor
          · intro hpos hneed
            rw [hg] at hpos hneed
            exact habort hpos hneed
          · intro hroom
            rw [hg] at hroom
            rcases hdone hroom with ⟨st, heq, hpat, hcur, hrm⟩
            refine ⟨st, heq, ?_, ?_, ?_⟩
            · rw [hpat, hg]
            · rw [hcur, hoffs]
            · intro hst
              rcases hrm hst with h1 | h1
              · exact Or.inl h1
              · refine Or.inr ?_
                simp only [subseqCI, if_neg h]
                exact h1

/-- Boolean characterization of `FuzzySearchRecursive`: it succeeds exactly
when the recursion limit is not hit on entry, both strings are non-empty,
the pattern is a case-insensitive subsequence of the source, and the matches
buffer has room for one offset per pattern character. -/
theorem FuzzySearchRecursive_ok_iff (pattern src : List Nat) (pos : Nat)
    (strBegin cur : List Nat) (maxM rc limit : Nat) :
    (FuzzySearchRecursive pattern src pos strBegin cur maxM rc limit).ok = true ↔
      (rc + 1 < limit ∧ pattern ≠ [] ∧ src ≠ [] ∧
        subseqCI pattern src = true ∧ cur.length + pattern.length ≤ maxM) := by
  unfold FuzzySearchRecursive
  by_cases h1 : limit ≤ rc + 1
  · rw [if_pos h1]
    simp only [show ((⟨false, 0, [], cur.length, rc + 1⟩ : RecResult)).ok = false from rfl]
    constructor
    · intro h; simp at h
    · intro h; omega
  · rw [if_neg h1]
    by_cases h2 : pattern.isEmpty = true ∨ src.isEmpty = true
    · rw [if_pos h2]
      constructor
      · intro h; simp at h
      · intro h
        exfalso
        rcases h2 with h2 | h2
        · exact h.2.1 (List.isEmpty_iff.mp h2)
        · exact h.2.2.1 (List.isEmpty_iff.mp h2)
    · rw [if_neg h2]
      push_neg at h2
      have hpat : pattern ≠ [] := fun hh => by simp [hh] at h2
      have hsrc : src ≠ [] := fun hh => by simp [hh] at h2
      rcases fuzzyLoop_spec src.length src le_rfl pattern pos strBegin cur maxM
        (rc + 1) limit false 0 [] with ⟨habort, hdone⟩
      by_cases hroom : greedyCount pattern src = 0 ∨
          cur.length + greedyCount pattern src ≤ maxM
      · rcases hdone hroom with ⟨st, heq, hpat2, hcur, hrm⟩
        rw [heq, recFinish_done]
        by_cases hsub : subseqCI pattern src = true
        · have hgfull : greedyCount pattern src = pattern.length :=
            (subseqCI_iff_greedyCount src pattern).mp hsub
          have hmt : st.pat.isEmpty = true := by
            rw [hpat2, hgfull]
            simp
          have hroom2 : cur.length + pattern.length ≤ maxM := by
            rcases hroom with h3 | h3
            · exfalso
              rw [hgfull] at h3
              have : pattern.length = 0 := h3
              exact hpat (List.length_eq_zero.mp this)
            · rw [hgfull] at h3
              exact h3
          by_cases h3 : st.rm = true ∧ (st.pat.isEmpty = false ∨
              scoreOf strBegin st.cur < st.bSc)
          · rw [if_pos h3]
            simp only [true_iff]
            exact ⟨by omega, hpat, hsrc, hsub, hroom2⟩
          · rw [if_neg h3, if_pos hmt]
            simp only [true_iff]
            exact ⟨by omega, hpat, hsrc, hsub, hroom2⟩
        · have hmt : st.pat.isEmpty = false := by
            rw [hpat2]
            rcases Nat.lt_or_ge (greedyCount pattern src) pattern.length with h4 | h4
            · have : pattern.drop (greedyCount pattern src) ≠ [] := by
                intro hh
                have := List.drop_eq_nil_iff.mp hh
                omega
              simpa using this
            · exfalso
              have : greedyCount pattern src = pattern.length :=
                Nat.le_antisymm (greedyCount_le src pattern) h4
              exact hsub ((subseqCI_iff_greedyCount src pattern).mpr this)
          have hrmf : st.rm = false := by
            rcases Bool.eq_false_or_eq_true st.rm with h4 | h4
            · rcases hrm h4 with h5 | h5
              · simp at h5
              · exact absurd h5 hsub
            · exact h4
          have h3 : ¬ (st.rm = true ∧ (st.pat.isEmpty = false ∨
              scoreOf strBegin st.cur < st.bSc)) := by
            rw [hrmf]
            simp
          rw [if_neg h3, hmt]
          simp only [Bool.false_eq_true, if_false]
          constructor
          · intro hh; simp at hh
          · intro hh
            exact absurd hh.2.2.2.1 hsub
      · push_neg at hroom
        rcases habort (by omega) (by omega) with ⟨r, heq⟩
        rw [heq, recFinish_abort]
        constructor
        · intro hh; simp at hh
        · intro hh
          rcases hh with ⟨-, -, -, hsub, hroom2⟩
          have : greedyCount pattern src = pattern.length :=
            (subseqCI_iff_greedyCount src pattern).mp hsub
          omega

/-- On success `FuzzySearchRecursive` reports one recorded offset per
character of the full pattern (buffer prefix plus pattern). -/
theorem FuzzySearchRecursive_ok_next (pattern src : List Nat) (pos : Nat)
    (strBegin cur : List Nat) (maxM rc limit : Nat)
    (hok : (FuzzySearchRecursive pattern src pos strBegin cur maxM rc limit).ok
      = true) :
    (FuzzySearchRecursive pattern src pos strBegin cur maxM rc limit).next =
      cur.length + pattern.length := by
  have hiff := (FuzzySearchRecursive_ok_iff pattern src pos strBegin cur maxM
    rc limit).mp hok
  rcases hiff with ⟨h1, hpat, hsrc, hsub, hroom⟩
  have hgfull : greedyCount pattern src = pattern.length :=
    (subseqCI_iff_greedyCount src pattern).mp hsub
  unfold FuzzySearchRecursive
  rw [if_neg (by omega : ¬ limit ≤ rc + 1)]
  have h2 : ¬ (pattern.isEmpty = true ∨ src.isEmpty = true) := by
    simp [List.isEmpty_iff, hpat, hsrc]
  rw [if_neg h2]
  rcases fuzzyLoop_spec src.length src le_rfl pattern pos strBegin cur maxM
    (rc + 1) limit false 0 [] with ⟨-, hdone⟩
  have hdisj : greedyCount pattern src = 0 ∨
      cur.length + greedyCount pattern src ≤ maxM := by
    rw [hgfull]
    exact Or.inr hroom
  rcases hdone hdisj with ⟨st, heq, hpat2, hcur, hrm⟩
  rw [heq, recFinish_done]
  have hlen : st.cur.length = cur.length + pattern.length := by
    rw [hcur]
    simp [greedyOffsets_length, hgfull]
  split
  · simpa using hlen
  · split
    · simpa using hlen
    · simpa using hlen

/-! ### Valid embeddings: what a matches buffer must look like -/

theorem Emb_length {s : List Nat} : ∀ {p e : List Nat} {lo : Nat},
    Emb s p e lo → e.length = p.length := by
  intro p
  induction p with
  | nil => intro e lo h; cases e with
    | nil => rfl
    | cons x xs => exact absurd h (by simp [Emb])
  | cons p0 ps ih =>
    intro e lo h
    cases e with
    | nil => exact absurd h (by simp [Emb])
    | cons o os =>
      have := ih h.2.2.2
      simp [this]

theorem Emb_mono {s : List Nat} : ∀ {p e : List Nat} {lo lo' : Nat},
    lo' ≤ lo → Emb s p e lo → Emb s p e lo' := by
  intro p
  induction p with
  | nil => intro e lo lo' _ h; cases e with
    | nil => trivial
    | cons x xs => exact absurd h (by simp [Emb])
  | cons p0 ps ih =>
    intro e lo lo' hle h
    cases e with
    | nil => exact absurd h (by simp [Emb])
    | cons o os => exact ⟨hle.trans h.1, h.2.1, h.2.2.1, h.2.2.2⟩

theorem Emb_bounds {s : List Nat} : ∀ {p e : List Nat} {lo : Nat},
    Emb s p e lo → ∀ x ∈ e, lo ≤ x ∧ x < s.length := by
  intro p
  induction p with
  | nil => intro e lo h x hx; cases e with
    | nil => simp at hx
    | cons o os => exact absurd h (by simp [Emb])
  | cons p0 ps ih =>
    intro e lo h x hx
    cases e with
    | nil => exact absurd h (by simp [Emb])
    | cons o os =>
      have hlo : lo ≤ o := h.1
      rcases List.mem_cons.mp hx with hx | hx
      · subst hx
        exact ⟨hlo, h.2.1⟩
      · have h2 := ih h.2.2.2 x hx
        exact ⟨by omega, h2.2⟩

theorem Emb_append {s : List Nat} : ∀ {p1 e1 : List Nat} {p2 e2 : List Nat}
    {lo mid : Nat}, Emb s p1 e1 lo → Emb s p2 e2 mid →
    (∀ x ∈ e1, x < mid) → lo ≤ mid →
    Emb s (p1 ++ p2) (e1 ++ e2) lo := by
  intro p1
  induction p1 with
  | nil =>
    intro e1 p2 e2 lo mid h1 h2 _ hle
    cases e1 with
    | nil => simpa using Emb_mono hle h2
    | cons x xs => exact absurd h1 (by simp [Emb])
  | cons p0 ps ih =>
    intro e1 p2 e2 lo mid h1 h2 hb hle
    cases e1 with
    | nil => exact absurd h1 (by simp [Emb])
    | cons o os =>
      refine ⟨h1.1, h1.2.1, h1.2.2.1, ?_⟩
      exact ih h1.2.2.2 h2 (fun x hx => hb x (List.mem_cons_of_mem o hx))
        (by have := hb o (List.mem_cons_self o os); omega)

theorem Emb_pairwise_lt {s : List Nat} : ∀ {p e : List Nat} {lo : Nat},
    Emb s p e lo → List.Pairwise (· < ·) e := by
  intro p
  induction p with
  | nil => intro e lo h; cases e with
    | nil => simp
    | cons x xs => exact absurd h (by simp [Emb])
  | cons p0 ps ih =>
    intro e lo h
    cases e with
    | nil => simp
    | cons o os =>
      refine List.pairwise_cons.mpr ⟨?_, ih h.2.2.2⟩
      intro x hx
      exact (Emb_bounds h.2.2.2 x hx).1

theorem Emb_get {s : List Nat} : ∀ {p e : List Nat} {lo : Nat}, Emb s p e lo →
    ∀ (k : Nat) (hk : k < p.length) (hk' : k < e.length),
      eqCI (p.get ⟨k, hk⟩) (s.getD (e.get ⟨k, hk'⟩) 0) := by
  intro p
  induction p with
  | nil => intro e lo h k hk; simp at hk
  | cons p0 ps ih =>
    intro e lo h k hk hk'
    cases e with
    | nil => exact absurd h (by simp [Emb])
    | cons o os =>
      cases k with
      | zero => exact h.2.2.1
      | succ k =>
        exact ih h.2.2.2 k (by simpa using hk) (by simpa using hk')

/-- Reading off the drop relation: if `s.drop pos` is `c :: cs` then `pos` is
a valid index, `c` the character there, and `cs` the next drop. -/
theorem drop_cons_rel {s : List Nat} {pos : Nat} {c : Nat} {cs : List Nat}
    (h : s.drop pos = c :: cs) :
    pos < s.length ∧ s.getD pos 0 = c ∧ s.drop (pos + 1) = cs := by
  have hlt : pos < s.length := by
    by_contra hle
    rw [List.drop_eq_nil_of_le (by omega)] at h
    exact List.noConfusion h
  have h2 := List.drop_eq_getElem_cons hlt
  rw [h] at h2
  have h3 : c = s[pos] ∧ cs = s.drop (pos + 1) := by
    have := List.cons.injEq c cs s[pos] (s.drop (pos + 1)) ▸ h2
    exact ⟨(List.cons.inj h2).1, (List.cons.inj h2).2⟩
  refine ⟨hlt, ?_, h3.2.symm⟩
  rw [List.getD_eq_getElem s 0 hlt, h3.1]

/-- The greedy offsets of a full match form a valid embedding (candidates of
length at most 256, so that the `unsigned char` store is lossless). -/
theorem greedyOffsets_emb : ∀ (src : List Nat) (pattern : List Nat)
    (pos : Nat) (s : List Nat), src = s.drop pos → s.length ≤ 256 →
    subseqCI pattern src = true →
    Emb s pattern (greedyOffsets pattern src pos) pos := by
  intro src
  induction src with
  | nil =>
    intro pattern pos s hdrop hs256 hsub
    cases pattern with
    | nil => simp [greedyOffsets, Emb]
    | cons p ps => simp [subseqCI] at hsub
  | cons c cs ih =>
    intro pattern pos s hdrop hs256 hsub
    rcases drop_cons_rel hdrop.symm with ⟨hlt, hgetd, hdrop'⟩
    cases pattern with
    | nil => simp [greedyOffsets, Emb]
    | cons p ps =>
      by_cases h : eqCI p c
      · simp only [greedyOffsets, if_pos h]
        have hmod : pos % 256 = pos := Nat.mod_eq_of_lt (by omega)
        rw [hmod]
        refine ⟨le_rfl, hlt, by rwa [hgetd], ?_⟩
        refine ih ps (pos + 1) s hdrop'.symm hs256 ?_
        simpa [subseqCI, if_pos h] using hsub
      · simp only [greedyOffsets, if_neg h]
        have := ih (p :: ps) (pos + 1) s hdrop'.symm hs256
          (by simpa [subseqCI, if_neg h] using hsub)
        exact Emb_mono (Nat.le_succ pos) this

/-- The best-recursive-match buffer only ever holds valid full-pattern
embeddings.  `Ptot` is the full pattern of the top-level call, split as the
already matched prefix `P0` (embedded into `s` by the buffer `cur`, below
position `pos`) followed by the remaining `pattern`. -/
theorem fuzzyLoop_off : ∀ (n : Nat) (src : List Nat), src.length ≤ n →
    ∀ (pattern : List Nat) (pos : Nat) (s cur : List Nat)
      (maxM rc limit : Nat) (rm : Bool) (bSc : Int) (bBuf : List Nat)
      (Ptot P0 : List Nat),
    src = s.drop pos → s.length ≤ 256 → Ptot = P0 ++ pattern →
    Emb s P0 cur 0 → (∀ x ∈ cur, x < pos) →
    (rm = true → Emb s Ptot bBuf 0) →
    ∀ st, fuzzyLoop pattern src pos s cur maxM rc limit rm bSc bBuf = .done st →
      st.rm = true → Emb s Ptot st.bBuf 0 := by
  intro n
  induction n with
  | zero =>
    intro src hle pattern pos s cur maxM rc limit rm bSc bBuf Ptot P0
      hdrop hs256 hsplit hemb hbnd hrm st heq hst
    have hsrc : src = [] := List.length_eq_zero.mp (Nat.le_zero.mp hle)
    subst hsrc
    rw [fuzzyLoop_nil_src] at heq
    cases heq
    exact hrm hst
  | succ n ih =>
    intro src hle pattern pos s cur maxM rc limit rm bSc bBuf Ptot P0
      hdrop hs256 hsplit hemb hbnd hrm st heq hst
    cases src with
    | nil =>
      rw [fuzzyLoop_nil_src] at heq
      cases heq
      exact hrm hst
    | cons c cs =>
      have hcs : cs.length ≤ n := by simpa using Nat.succ_le_succ_iff.mp hle
      rcases drop_cons_rel hdrop.symm with ⟨hlt, hgetd, hdrop'⟩
      cases pattern with
      | nil =>
        rw [fuzzyLoop_nil_pat] at heq
        cases heq
        exact hrm hst
      | cons p ps =>
        by_cases h : eqCI p c
        · by_cases hov : maxM ≤ cur.length
          · rw [fuzzyLoop_cons_abort pos s cur rc limit rm bSc bBuf h hov] at heq
            exact absurd heq (by simp)
          · rw [fuzzyLoop_cons_match pos s cur rc limit rm bSc bBuf h hov] at heq
            set child := FuzzySearchRecursive (p :: ps) cs (pos + 1) s cur
              256 rc limit with hchild
            -- a successful recursive branch yields a full-pattern embedding
            have child_emb : child.ok = true → Emb s Ptot child.buf 0 := by
              intro hok
              rw [hchild]
              rw [hchild] at hok
              have hiff := (FuzzySearchRecursive_ok_iff (p :: ps) cs (pos + 1)
                s cur 256 rc limit).mp hok
              rcases hiff with ⟨hrc, -, hcs0, hsub, hroom⟩
              have hgfull : greedyCount (p :: ps) cs = (p :: ps).length :=
                (subseqCI_iff_greedyCount cs (p :: ps)).mp hsub
              unfold FuzzySearchRecursive at hok ⊢
              rw [if_neg (by omega : ¬ limit ≤ rc + 1)] at hok ⊢
              have h2 : ¬ ((p :: ps).isEmpty = true ∨ cs.isEmpty = true) := by
                simp [List.isEmpty_iff, hcs0]
              rw [if_neg h2] at hok ⊢
              rcases fuzzyLoop_spec cs.length cs le_rfl (p :: ps) (pos + 1) s
                cur 256 (rc + 1) limit false 0 [] with ⟨-, hdone⟩
              rcases hdone (Or.inr (by omega)) with ⟨st2, heq2, hpat2, hcur2, hrm2⟩
              rw [heq2, recFinish_done] at hok ⊢
              have hcuremb : Emb s Ptot st2.cur 0 := by
                rw [hcur2, hsplit]
                refine Emb_append hemb ?_ hbnd (Nat.zero_le _)
                have := greedyOffsets_emb cs (p :: ps) (pos + 1) s hdrop'.symm
                  hs256 hsub
                exact Emb_mono (by omega) this
              have hbb : st2.rm = true → Emb s Ptot st2.bBuf 0 := by
                intro hst2
                exact ih cs hcs (p :: ps) (pos + 1) s cur 256 (rc + 1) limit
                  false 0 [] Ptot P0 hdrop'.symm hs256 hsplit hemb
                  (fun x hx => by have := hbnd x hx; omega)
                  (by intro hh; simp at hh) st2 heq2 hst2
              by_cases h3 : st2.rm = true ∧ (st2.pat.isEmpty = false ∨
                  scoreOf s st2.cur < st2.bSc)
              · rw [if_pos h3]
                have hblen : st2.bBuf.length = Ptot.length :=
                  Emb_length (hbb h3.1)
                have hplen : Ptot.length = cur.length + (p :: ps).length := by
                  rw [hsplit]
                  have := Emb_length hemb
                  simp [this]
                have : st2.bBuf.take 256 = st2.bBuf :=
                  List.take_of_length_le (by omega)
                simpa [this] using hbb h3.1
              · rw [if_neg h3]
                have hmt : st2.pat.isEmpty = true := by
                  rw [hpat2, hgfull]
                  simp
                rw [if_pos hmt]
                simpa using hcuremb
            -- continue with the tail loop
            have hemb' : Emb s (P0 ++ [p]) (cur ++ [pos % 256]) 0 := by
              have hmod : pos % 256 = pos := Nat.mod_eq_of_lt (by omega)
              rw [hmod]
              refine Emb_append hemb ?_ hbnd (Nat.zero_le _)
              refine ⟨le_rfl, hlt, by rwa [hgetd], ?_⟩
              simp [Emb]
            refine ih cs hcs ps (pos + 1) s (cur ++ [pos % 256]) maxM child.rc
              limit (rm || child.ok) _ _ Ptot (P0 ++ [p]) hdrop'.symm hs256
              (by rw [hsplit]; simp) hemb' ?_ ?_ st heq hst
            · intro x hx
              have hmod : pos % 256 = pos := Nat.mod_eq_of_lt (by omega)
              rcases List.mem_append.mp hx with hx | hx
              · have := hbnd x hx; omega
              · rw [hmod] at hx
                simp at hx
                omega
            · intro hor
              by_cases hupd : child.ok = true ∧ (rm = false ∨ bSc < child.score)
              · rw [if_pos hupd]
                exact child_emb hupd.1
              · rw [if_neg hupd]
                rcases Bool.or_eq_true_iff.mp hor with h1 | h1
                · exact hrm h1
                · by_cases h2 : rm = true
                  · exact hrm h2
                  · exfalso
                    exact hupd ⟨h1, Or.inl (by simpa using h2)⟩
        · rw [fuzzyLoop_cons_nomatch pos s cur maxM rc limit rm bSc bBuf h] at heq
          exact ih cs hcs (p :: ps) (pos + 1) s cur maxM rc limit rm bSc bBuf
            Ptot P0 hdrop'.symm hs256 hsplit hemb
            (fun x hx => by have := hbnd x hx; omega) hrm st heq hst

/-- On success, the matches buffer returned by `FuzzySearchRecursive` holds a
valid embedding of the full pattern (for candidates of length at most 256). -/
theorem FuzzySearchRecursive_ok_emb (pattern src : List Nat) (pos : Nat)
    (s cur : List Nat) (maxM rc limit : Nat) (Ptot P0 : List Nat)
    (hdrop : src = s.drop pos) (hs256 : s.length ≤ 256)
    (hsplit : Ptot = P0 ++ pattern) (hemb : Emb s P0 cur 0)
    (hbnd : ∀ x ∈ cur, x < pos)
    (hok : (FuzzySearchRecursive pattern src pos s cur maxM rc limit).ok = true) :
    Emb s Ptot (FuzzySearchRecursive pattern src pos s cur maxM rc limit).buf
      0 := by
  have hiff := (FuzzySearchRecursive_ok_iff pattern src pos s cur maxM rc
    limit).mp hok
  rcases hiff with ⟨hrc, hpat, hsrc, hsub, hroom⟩
  have hgfull : greedyCount pattern src = pattern.length :=
    (subseqCI_iff_greedyCount src pattern).mp hsub
  unfold FuzzySearchRecursive
  rw [if_neg (by omega : ¬ limit ≤ rc + 1)]
  have h2 : ¬ (pattern.isEmpty = true ∨ src.isEmpty = true) := by
    simp [List.isEmpty_iff, hpat, hsrc]
  rw [if_neg h2]
  rcases fuzzyLoop_spec src.length src le_rfl pattern pos s cur maxM
    (rc + 1) limit false 0 [] with ⟨-, hdone⟩
  rcases hdone (Or.inr (by omega)) with ⟨st, heq, hpat2, hcur, hrm⟩
  rw [heq, recFinish_done]
  have hcuremb : Emb s Ptot st.cur 0 := by
    rw [hcur, hsplit]
    refine Emb_append hemb ?_ hbnd (Nat.zero_le _)
    exact greedyOffsets_emb src pattern pos s hdrop hs256 hsub
  have hbb : st.rm = true → Emb s Ptot st.bBuf 0 :=
    fuzzyLoop_off src.length src le_rfl pattern pos s cur maxM (rc + 1) limit
      false 0 [] Ptot P0 hdrop hs256 hsplit hemb hbnd
      (by intro hh; simp at hh) st heq
  by_cases h3 : st.rm = true ∧ (st.pat.isEmpty = false ∨
      scoreOf s st.cur < st.bSc)
  · rw [if_pos h3]
    have hblen : st.bBuf.length = Ptot.length := Emb_length (hbb h3.1)
    have hplen : Ptot.length = cur.length + pattern.length := by
      rw [hsplit]
      have := Emb_length hemb
      simp [this]
    have ht : st.bBuf.take maxM = st.bBuf :=
      List.take_of_length_le (by omega)
    simpa [ht] using hbb h3.1
  · rw [if_neg h3]
    have hmt : st.pat.isEmpty = true := by
      rw [hpat2, hgfull]
      simp
    rw [if_pos hmt]
    simpa using hcuremb

/-! ### Top-level facts about `FuzzySearchEX` -/

/-- `FuzzySearchEX` succeeds exactly when the pattern is non-empty, occurs
case-insensitively in order inside the haystack, and fits in the matches
buffer. -/
theorem FuzzySearchEX_ok_iff (pattern haystack : List Nat) (maxM : Nat) :
    (FuzzySearchEX pattern haystack maxM).ok = true ↔
      (pattern ≠ [] ∧
        List.Sublist (pattern.map tolower) (haystack.map tolower) ∧
        pattern.length ≤ maxM) := by
  have h0 : (FuzzySearchEX pattern haystack maxM).ok =
      (FuzzySearchRecursive pattern haystack 0 haystack [] maxM 0 10).ok := rfl
  rw [h0, FuzzySearchRecursive_ok_iff]
  constructor
  · rintro ⟨-, h1, -, h2, h3⟩
    exact ⟨h1, (subseqCI_iff_sublist _ _).mp h2, by simpa using h3⟩
  · rintro ⟨h1, h2, h3⟩
    have hsub := (subseqCI_iff_sublist haystack pattern).mpr h2
    have hlen := subseqCI_length_le hsub
    refine ⟨by omega, h1, ?_, hsub, by simpa using h3⟩
    intro hh
    subst hh
    have h4 : pattern.length = 0 := by simpa using hlen
    exact h1 (List.length_eq_zero.mp h4)

/-- On success the reported match count is the pattern length. -/
theorem FuzzySearchEX_ok_count (pattern haystack : List Nat) (maxM : Nat)
    (hok : (FuzzySearchEX pattern haystack maxM).ok = true) :
    (FuzzySearchEX pattern haystack maxM).count = pattern.length := by
  have h0 : (FuzzySearchEX pattern haystack maxM).count =
      (FuzzySearchRecursive pattern haystack 0 haystack [] maxM 0 10).next := rfl
  have h1 : (FuzzySearchEX pattern haystack maxM).ok =
      (FuzzySearchRecursive pattern haystack 0 haystack [] maxM 0 10).ok := rfl
  rw [h0, FuzzySearchRecursive_ok_next pattern haystack 0 haystack [] maxM 0 10
    (by rw [← h1]; exact hok)]
  simp

/-- On success (for candidates of at most 256 characters) the reported offsets
form a valid embedding of the pattern into the haystack. -/
theorem FuzzySearchEX_ok_emb (pattern haystack : List Nat) (maxM : Nat)
    (h256 : haystack.length ≤ 256)
    (hok : (FuzzySearchEX pattern haystack maxM).ok = true) :
    Emb haystack pattern (FuzzySearchEX pattern haystack maxM).outMatches 0 := by
  have h1 : (FuzzySearchEX pattern haystack maxM).ok =
      (FuzzySearchRecursive pattern haystack 0 haystack [] maxM 0 10).ok := rfl
  rw [h1] at hok
  have hemb := FuzzySearchRecursive_ok_emb pattern haystack 0 haystack [] maxM
    0 10 pattern [] (by simp) h256 (by simp) (by constructor) (by simp) hok
  have hnext := FuzzySearchRecursive_ok_next pattern haystack 0 haystack []
    maxM 0 10 hok
  have hblen : (FuzzySearchRecursive pattern haystack 0 haystack [] maxM 0
      10).buf.length = pattern.length := Emb_length hemb
  have h0 : (FuzzySearchEX pattern haystack maxM).outMatches =
      (FuzzySearchRecursive pattern haystack 0 haystack [] maxM 0 10).buf.take
        (FuzzySearchRecursive pattern haystack 0 haystack [] maxM 0 10).next :=
    rfl
  rw [h0, hnext, List.take_of_length_le (by simp [hblen])]
  exact hemb

/-- C1 (corrected). `FuzzySearchEX(P, C)` returns matched=true if and only if
P is non-empty, the characters of P occur case-insensitively and in order as
a subsequence of the characters of C, and P fits in the matches buffer
(`P.length ≤ maxMatches`; 256 for the buffer-supplying overload).  In
particular — against the original claim — an empty pattern never matches. -/
theorem claim_C1 (P C : List Nat) (maxM : Nat) :
    (FuzzySearchEX P C maxM).ok = true ↔
      (P ≠ [] ∧ List.Sublist (P.map tolower) (C.map tolower) ∧
        P.length ≤ maxM) :=
  FuzzySearchEX_ok_iff P C maxM

/-- C1 counterexample: the empty pattern is a subsequence of "a"
(case-insensitively, trivially), yet the matcher reports no match, refuting
the claimed boundary behaviour for empty P. -/
theorem claim_C1_counterexample :
    (FuzzySearchEXSimple [] [97]).ok = false ∧
      List.Sublist (List.map tolower []) (List.map tolower [97]) :=
  ⟨by decide, List.nil_sublist _⟩

/-- C2 (corrected): for candidates of at most 256 characters, a successful
match reports exactly one offset per pattern character, strictly increasing,
each a valid index of a case-insensitively equal candidate character. -/
theorem claim_C2 (P C : List Nat) (maxM : Nat) (h256 : C.length ≤ 256)
    (hok : (FuzzySearchEX P C maxM).ok = true) :
    (FuzzySearchEX P C maxM).outMatches.length = P.length ∧
    List.Pairwise (· < ·) (FuzzySearchEX P C maxM).outMatches ∧
    ∀ (k : Nat) (hk : k < P.length)
      (hk' : k < (FuzzySearchEX P C maxM).outMatches.length),
      (FuzzySearchEX P C maxM).outMatches.get ⟨k, hk'⟩ < C.length ∧
      eqCI (P.get ⟨k, hk⟩)
        (C.getD ((FuzzySearchEX P C maxM).outMatches.get ⟨k, hk'⟩) 0) := by
  have hemb := FuzzySearchEX_ok_emb P C maxM h256 hok
  refine ⟨Emb_length hemb, Emb_pairwise_lt hemb, ?_⟩
  intro k hk hk'
  constructor
  · exact (Emb_bounds hemb _ (List.get_mem _ _ hk')).2
  · exact Emb_get hemb k hk hk'

/-- C2 witness: pattern "ab" against candidate "xaxb" succeeds with two
strictly increasing valid offsets. -/
theorem claim_C2_witness :
    ([120, 97, 120, 98] : List Nat).length ≤ 256 ∧
    (FuzzySearchEX [97, 98] [120, 97, 120, 98] 128).ok = true ∧
    ((FuzzySearchEX [97, 98] [120, 97, 120, 98] 128).outMatches.length =
        ([97, 98] : List Nat).length ∧
      List.Pairwise (· < ·)
        (FuzzySearchEX [97, 98] [120, 97, 120, 98] 128).outMatches ∧
      ∀ (k : Nat) (hk : k < ([97, 98] : List Nat).length)
        (hk' : k <
          (FuzzySearchEX [97, 98] [120, 97, 120, 98] 128).outMatches.length),
        (FuzzySearchEX [97, 98] [120, 97, 120, 98] 128).outMatches.get
            ⟨k, hk'⟩ < ([120, 97, 120, 98] : List Nat).length ∧
        eqCI (([97, 98] : List Nat).get ⟨k, hk⟩)
          (([120, 97, 120, 98] : List Nat).getD
            ((FuzzySearchEX [97, 98] [120, 97, 120, 98] 128).outMatches.get
              ⟨k, hk'⟩) 0)) :=
  ⟨by decide, by decide,
    claim_C2 [97, 98] [120, 97, 120, 98] 128 (by decide) (by decide)⟩

/-- C2 counterexample: on a 257-character candidate ('a', 255 'x's, 'b') the
offsets are stored through `unsigned char` and wrap: the match of pattern
"ab" succeeds but reports offsets [0, 0] — not strictly increasing, and the
second offset points at 'a', not 'b'. -/
theorem claim_C2_counterexample :
    (FuzzySearchEXSimple [97, 98]
        (97 :: List.replicate 255 120 ++ [98])).ok = true ∧
    (FuzzySearchEXSimple [97, 98]
        (97 :: List.replicate 255 120 ++ [98])).outMatches = [0, 0] ∧
    ¬ List.Pairwise (· < ·) ([0, 0] : List Nat) :=
  ⟨by decide, by decide, by decide⟩

/-- C7 (confirmed): a pattern needing strictly more offsets than the
`maxMatches` bound can never match — the matcher fails closed. -/
theorem claim_C7 (P C : List Nat) (maxM : Nat) (h : maxM < P.length) :
    (FuzzySearchEX P C maxM).ok = false := by
  cases hb : (FuzzySearchEX P C maxM).ok with
  | false => rfl
  | true =>
    exfalso
    have := ((FuzzySearchEX_ok_iff P C maxM).mp hb).2.2
    omega

/-- C7 witness: "ab" is a subsequence of "ab", but with `maxMatches = 1` the
matcher reports no match. -/
theorem claim_C7_witness :
    1 < ([97, 98] : List Nat).length ∧
    (FuzzySearchEX [97, 98] [97, 98] 1).ok = false :=
  ⟨by decide, claim_C7 [97, 98] [97, 98] 1 (by decide)⟩

/-! ### Matching a pattern against itself (C3) -/

theorem range_eq_cons_range' {L : Nat} (h : 0 < L) :
    List.range L = 0 :: List.range' 1 (L - 1) := by
  rw [List.range_eq_range']
  conv_lhs => rw [show L = (L - 1) + 1 by omega]
  simpa using List.range'_succ 0 (L - 1) 1

theorem orderBonusGo_range' (P : List Nat) (hplain : plainP P) :
    ∀ (k a : Nat), a + 1 + k ≤ P.length →
    orderBonusGo P a (List.range' (a + 1) k) = 15 * (k : Int) := by
  intro k
  induction k with
  | zero => intro a _; simp [orderBonusGo]
  | succ k ih =>
    intro a ha
    have h1 : List.range' (a + 1) (k + 1) = (a + 1) :: List.range' (a + 1 + 1) k := by
      simpa using List.range'_succ (a + 1) k 1
    rw [h1]
    simp only [orderBonusGo]
    have hlt : a < P.length - 1 := by omega
    rcases hplain a hlt with ⟨hcam, hsep1, hsep2⟩
    have he : elemBonus P (a + 1) = 0 := by
      unfold elemBonus
      rw [if_pos (by omega : 0 < a + 1)]
      simp only [Nat.add_sub_cancel]
      rw [if_neg hcam, if_neg (by tauto)]
      simp
    rw [he, ih (a + 1) (by omega)]
    norm_num
    ring

theorem orderBonus_range (P : List Nat) (hplain : plainP P)
    (hne : P ≠ []) : orderBonus P (List.range P.length) =
      15 + 15 * ((P.length : Int) - 1) := by
  have hpos : 0 < P.length := List.length_pos.mpr hne
  rw [range_eq_cons_range' hpos]
  simp only [orderBonus]
  have he : elemBonus P 0 = 15 := by unfold elemBonus; simp
  have h2 : List.range' 1 (P.length - 1) = List.range' (0 + 1) (P.length - 1) := by
    norm_num
  rw [he, h2, orderBonusGo_range' P hplain (P.length - 1) 0 (by omega)]
  have h3 : ((P.length : Int) - 1) = ((P.length - 1 : Nat) : Int) := by omega
  rw [h3]

theorem scoreOf_self (P : List Nat) (hplain : plainP P) (hne : P ≠ []) :
    scoreOf P (List.range P.length) =
      100 + 15 + 15 * ((P.length : Int) - 1) := by
  unfold scoreOf
  have hpos : 0 < P.length := List.length_pos.mpr hne
  have hh : (List.range P.length).headD 0 = 0 := by
    rw [range_eq_cons_range' hpos]
    rfl
  rw [hh, orderBonus_range P hplain hne]
  simp
  ring

/-- Matching a pattern against itself: the loop matches greedily position by
position, every recursive skip branch fails (the remaining pattern is longer
than the remaining source), and the recorded offsets are `0, 1, …, len-1`. -/
theorem fuzzyLoop_self (P : List Nat) (h256 : P.length ≤ 256) :
    ∀ (k i : Nat), i + k = P.length →
    ∀ (rc limit : Nat) (bSc : Int) (bBuf : List Nat),
    ∃ rc', fuzzyLoop (P.drop i) (P.drop i) i P (List.range i) 256 rc limit
        false bSc bBuf =
      .done ⟨[], List.range P.length, false, bSc, bBuf, rc'⟩ := by
  intro k
  induction k with
  | zero =>
    intro i hi rc limit bSc bBuf
    have hd : P.drop i = [] := List.drop_eq_nil_of_le (by omega)
    rw [hd, fuzzyLoop_nil_pat]
    exact ⟨rc, by rw [show i = P.length by omega]⟩
  | succ k ih =>
    intro i hi rc limit bSc bBuf
    have hlt : i < P.length := by omega
    have hd : P.drop i = P[i] :: P.drop (i + 1) := List.drop_eq_getElem_cons hlt
    rw [hd]
    have heq : eqCI P[i] P[i] := rfl
    have hov : ¬ 256 ≤ (List.range i).length := by simp; omega
    rw [fuzzyLoop_cons_match i P (List.range i) rc limit false bSc bBuf heq hov]
    set child := FuzzySearchRecursive (P[i] :: P.drop (i + 1)) (P.drop (i + 1))
      (i + 1) P (List.range i) 256 rc limit with hchild
    have hcf : child.ok = false := by
      cases hb : child.ok with
      | false => rfl
      | true =>
        exfalso
        rw [hchild] at hb
        have := ((FuzzySearchRecursive_ok_iff _ _ _ _ _ _ _ _).mp hb).2.2.2.1
        have hlen := subseqCI_length_le this
        simp at hlen
        omega
    rw [hcf]
    have hno : ¬ ((false : Bool) = true ∧
        ((false : Bool) = false ∨ bSc < child.score)) := by simp
    rw [if_neg hno, if_neg hno]
    have hmod : i % 256 = i := Nat.mod_eq_of_lt (by omega)
    have hr : List.range i ++ [i % 256] = List.range (i + 1) := by
      rw [hmod]
      exact (List.range_succ i).symm
    rw [hr]
    simp only [Bool.or_false]
    exact ih (i + 1) (by omega) child.rc limit bSc bBuf

/-- Matching a non-empty pattern of at most 256 characters against itself
always succeeds, with offsets `0, …, len-1`. -/
theorem FuzzySearchEXSimple_self (P : List Nat) (hne : P ≠ [])
    (h256 : P.length ≤ 256) :
    FuzzySearchEXSimple P P =
      ⟨true, scoreOf P (List.range P.length), List.range P.length,
        P.length⟩ := by
  unfold FuzzySearchEXSimple FuzzySearchEX FuzzySearchRecursive
  rw [if_neg (by omega : ¬ 10 ≤ 0 + 1)]
  rw [if_neg (by simp [List.isEmpty_iff, hne] : ¬ (P.isEmpty = true ∨
    P.isEmpty = true))]
  rcases fuzzyLoop_self P h256 P.length 0 (by omega) 1 10 0 [] with ⟨rc', hloop⟩
  simp only [List.drop_zero, List.range_zero] at hloop
  rw [hloop, recFinish_done]
  rw [if_neg (by simp : ¬ ((false : Bool) = true ∧
    (([] : List Nat).isEmpty = false ∨ scoreOf P (List.range P.length) < 0)))]
  rw [if_pos (by simp : ([] : List Nat).isEmpty = true)]
  simp [List.take_of_length_le]

/-- C3 (corrected): for a non-empty pattern of at most 256 characters with no
camel-case transitions and no separator characters, matching the pattern
against itself scores exactly `100 + 15 + 15 * (len - 1)`.  (Without the
extra hypotheses the camel-case and separator bonuses can push the score
higher; see the counterexample.) -/
theorem claim_C3 (P : List Nat) (hne : P ≠ []) (h256 : P.length ≤ 256)
    (hplain : plainP P) :
    (FuzzySearchEXSimple P P).ok = true ∧
    (FuzzySearchEXSimple P P).score =
      100 + 15 + 15 * ((P.length : Int) - 1) := by
  rw [FuzzySearchEXSimple_self P hne h256]
  exact ⟨rfl, scoreOf_self P hplain hne⟩

/-- C3 witness: "ab" against itself scores 130 = 100 + 15 + 15. -/
theorem claim_C3_witness :
    (([97, 98] : List Nat) ≠ [] ∧ ([97, 98] : List Nat).length ≤ 256 ∧
      plainP [97, 98]) ∧
    ((FuzzySearchEXSimple [97, 98] [97, 98]).ok = true ∧
      (FuzzySearchEXSimple [97, 98] [97, 98]).score =
        100 + 15 + 15 * ((([97, 98] : List Nat).length : Int) - 1)) :=
  ⟨⟨by decide, by decide, by decide⟩,
    claim_C3 [97, 98] (by decide) (by decide) (by decide)⟩

/-- C3 counterexample: the pattern "aB" matched against itself earns the
camel-case bonus on top of the documented maximum, scoring 160 instead of
the claimed 100 + 15 + 15 * (2 - 1) = 130. -/
theorem claim_C3_counterexample :
    (FuzzySearchEXSimple [97, 66] [97, 66]).ok = true ∧
    (FuzzySearchEXSimple [97, 66] [97, 66]).score = 160 ∧
    ¬ ((160 : Int) =
      100 + 15 + 15 * ((([97, 66] : List Nat).length : Int) - 1)) :=
  ⟨by decide, by decide, by decide⟩

/-! ### The single-best selectors (C5, C8) -/

theorem autoScan_succ_none (f : Nat → List Nat) (str : List Nat) (n i : Nat) :
    autoScan f str (n + 1) i none =
      autoScan f str n (i + 1)
        (if (FuzzySearchEX str (f i) 128).ok = true
          then some (i, (FuzzySearchEX str (f i) 128).score,
            (FuzzySearchEX str (f i) 128).count)
          else none) := rfl

theorem autoScan_succ_some (f : Nat → List Nat) (str : List Nat) (n i b : Nat)
    (bs : Int) (pmc : Nat) :
    autoScan f str (n + 1) i (some (b, bs, pmc)) =
      autoScan f str n (i + 1)
        (if (FuzzySearchEX str (f i) 128).ok = true ∧
            ((bs < (FuzzySearchEX str (f i) 128).score ∧
              (FuzzySearchEX str (f i) 128).count ≤ pmc) ∨
            ((FuzzySearchEX str (f i) 128).score = bs ∧
              pmc < (FuzzySearchEX str (f i) 128).count))
          then some (i, (FuzzySearchEX str (f i) 128).score,
            (FuzzySearchEX str (f i) 128).count)
          else some (b, bs, pmc)) := rfl

theorem autoScanSpec_succ_none (f : Nat → List Nat) (str : List Nat)
    (n i : Nat) :
    autoScanSpec f str (n + 1) i none =
      autoScanSpec f str n (i + 1)
        (if (FuzzySearchEX str (f i) 128).ok = true
          then some (i, (FuzzySearchEX str (f i) 128).score,
            (FuzzySearchEX str (f i) 128).count)
          else none) := rfl

theorem autoScanSpec_succ_some (f : Nat → List Nat) (str : List Nat)
    (n i b : Nat) (bs : Int) (pmc : Nat) :
    autoScanSpec f str (n + 1) i (some (b, bs, pmc)) =
      autoScanSpec f str n (i + 1)
        (if (FuzzySearchEX str (f i) 128).ok = true ∧
            (bs < (FuzzySearchEX str (f i) 128).score ∨
            ((FuzzySearchEX str (f i) 128).score = bs ∧
              pmc < (FuzzySearchEX str (f i) 128).count))
          then some (i, (FuzzySearchEX str (f i) 128).score,
            (FuzzySearchEX str (f i) 128).count)
          else some (b, bs, pmc)) := rfl

/-- On every input, the source's replacement condition of
`DefaultAutoSelectSearchCallback` behaves exactly as the specification's
rule: since the match count of every successful match equals the pattern
length, the extra `prevmatch_count >= match_count` conjunct is always true
and the `match_count > prevmatch_count` tie-break never fires. -/
theorem autoScan_eq_spec (f : Nat → List Nat) (str : List Nat) :
    ∀ (n i : Nat) (st : Option (Nat × Int × Nat)),
    (∀ b bs pmc, st = some (b, bs, pmc) → pmc = str.length) →
    autoScan f str n i st = autoScanSpec f str n i st := by
  intro n
  induction n with
  | zero => intro i st _; rfl
  | succ n ih =>
    intro i st hinv
    cases st with
    | none =>
      rw [autoScan_succ_none, autoScanSpec_succ_none]
      by_cases hok : (FuzzySearchEX str (f i) 128).ok = true
      · rw [if_pos hok]
        refine ih (i + 1) _ ?_
        intro b bs pmc h
        simp only [Option.some.injEq, Prod.mk.injEq] at h
        rw [← h.2.2]
        exact FuzzySearchEX_ok_count str (f i) 128 hok
      · rw [if_neg hok]
        exact ih (i + 1) _ (by intro b bs pmc h; simp at h)
    | some s =>
      rcases s with ⟨b, bs, pmc⟩
      have hpmc : pmc = str.length := hinv b bs pmc rfl
      rw [autoScan_succ_some, autoScanSpec_succ_some]
      have hkeep : ∀ b' bs' pmc', some (b, bs, pmc) = some (b', bs', pmc') →
          pmc' = str.length := by
        intro b' bs' pmc' h
        simp only [Option.some.injEq, Prod.mk.injEq] at h
        rw [← h.2.2]
        exact hpmc
      by_cases hok : (FuzzySearchEX str (f i) 128).ok = true
      · have hcount := FuzzySearchEX_ok_count str (f i) 128 hok
        have htake : ∀ b' bs' pmc',
            some (i, (FuzzySearchEX str (f i) 128).score,
              (FuzzySearchEX str (f i) 128).count) = some (b', bs', pmc') →
            pmc' = str.length := by
          intro b' bs' pmc' h
          simp only [Option.some.injEq, Prod.mk.injEq] at h
          rw [← h.2.2, hcount]
        have hcond : ((FuzzySearchEX str (f i) 128).ok = true ∧
            ((bs < (FuzzySearchEX str (f i) 128).score ∧
              (FuzzySearchEX str (f i) 128).count ≤ pmc) ∨
            ((FuzzySearchEX str (f i) 128).score = bs ∧
              pmc < (FuzzySearchEX str (f i) 128).count))) ↔
            ((FuzzySearchEX str (f i) 128).ok = true ∧
            (bs < (FuzzySearchEX str (f i) 128).score ∨
            ((FuzzySearchEX str (f i) 128).score = bs ∧
              pmc < (FuzzySearchEX str (f i) 128).count))) := by
          rw [hcount, hpmc]
          constructor
          · rintro ⟨h1, h2 | h2⟩
            · exact ⟨h1, Or.inl h2.1⟩
            · exact ⟨h1, Or.inr h2⟩
          · rintro ⟨h1, h2 | h2⟩
            · exact ⟨h1, Or.inl ⟨h2, le_rfl⟩⟩
            · exact ⟨h1, Or.inr h2⟩
        by_cases hc : (FuzzySearchEX str (f i) 128).ok = true ∧
            (bs < (FuzzySearchEX str (f i) 128).score ∨
            ((FuzzySearchEX str (f i) 128).score = bs ∧
              pmc < (FuzzySearchEX str (f i) 128).count))
        · rw [if_pos (hcond.mpr hc), if_pos hc]
          exact ih (i + 1) _ htake
        · rw [if_neg (fun hh => hc (hcond.mp hh)), if_neg hc]
          exact ih (i + 1) _ hkeep
      · rw [if_neg (fun hh => hok hh.1), if_neg (fun hh => hok hh.1)]
        exact ih (i + 1) _ hkeep

/-- C5 (confirmed): the selector of v1/v2 (`DefaultAutoSelectSearchCallback`)
computes, on every input, exactly what the specification's replacement rule
("replace exactly when the score is strictly greater, or equal with a higher
match count") prescribes. -/
theorem claim_C5 (count : Nat) (f : Nat → List Nat) (str : List Nat) :
    DefaultAutoSelectSearchCallback count f str =
      AutoSelectSpecCallback count f str := by
  unfold DefaultAutoSelectSearchCallback AutoSelectSpecCallback
  by_cases h : str = []
  · rw [if_pos h, if_pos h]
  · rw [if_neg h, if_neg h,
      autoScan_eq_spec f str count 0 none (by intro b bs pmc h2; simp at h2)]

theorem fuzzySearchScan_succ_none (f : Nat → List Nat) (str : List Nat)
    (n i : Nat) :
    fuzzySearchScan f str (n + 1) i none =
      fuzzySearchScan f str n (i + 1)
        (if (FuzzySearchEX str (f i) 128).ok = true
          then some (i, (FuzzySearchEX str (f i) 128).score,
            (FuzzySearchEX str (f i) 128).count)
          else none) := rfl

/-- With an empty pattern no matcher call can succeed, so the early selector
variant's scan keeps its `none` state. -/
theorem fuzzySearchScan_empty (f : Nat → List Nat) :
    ∀ (n i : Nat), fuzzySearchScan f [] n i none = none := by
  intro n
  induction n with
  | zero => intro i; rfl
  | succ n ih =>
    intro i
    rw [fuzzySearchScan_succ_none]
    have hok : ¬ (FuzzySearchEX [] (f i) 128).ok = true := by
      intro hb
      exact ((FuzzySearchEX_ok_iff _ _ _).mp hb).1 rfl
    rw [if_neg hok]
    exact ih (i + 1)

/-- C8 (confirmed): with the empty pattern both single-best selector variants
return -1 on any non-empty collection — the v1 callback by its explicit
short-circuit, the early `FuzzySearch` because the matcher rejects an empty
pattern for every candidate. -/
theorem claim_C8 (count : Nat) (f : Nat → List Nat) (h : 0 < count) :
    DefaultAutoSelectSearchCallback count f [] = -1 ∧
    FuzzySearch count f [] = -1 := by
  constructor
  · unfold DefaultAutoSelectSearchCallback
    rw [if_pos rfl]
  · unfold FuzzySearch
    rw [fuzzySearchScan_empty f count 0]

/-- C8 witness: a one-element collection. -/
theorem claim_C8_witness :
    0 < 1 ∧
    (DefaultAutoSelectSearchCallback 1 (fun _ => [97]) [] = -1 ∧
      FuzzySearch 1 (fun _ => [97]) [] = -1) :=
  ⟨Nat.one_pos, claim_C8 1 (fun _ => [97]) Nat.one_pos⟩

/-! ### The score-only selector of `src/unnamed/part_000` (C6) -/

theorem fuzzySearchPartScan_succ_none (f : Nat → Nat × List Nat)
    (str : List Nat) (n i : Nat) :
    fuzzySearchPartScan f str (n + 1) i none =
      fuzzySearchPartScan f str n (i + 1)
        (if (fuzzy_score (f i).1 (f i).2 str).1 = true
          then some (i, (fuzzy_score (f i).1 (f i).2 str).2) else none) := rfl

theorem fuzzySearchPartScan_succ_some (f : Nat → Nat × List Nat)
    (str : List Nat) (n i b : Nat) (smax : Int) :
    fuzzySearchPartScan f str (n + 1) i (some (b, smax)) =
      fuzzySearchPartScan f str n (i + 1)
        (if (fuzzy_score (f i).1 (f i).2 str).1 = true ∧
            smax < (fuzzy_score (f i).1 (f i).2 str).2
          then some (i, (fuzzy_score (f i).1 (f i).2 str).2)
          else some (b, smax)) := rfl

/-- Invariant of the scan of `fuzzy_search`: the state holds the earliest
index attaining the maximum score among the matches seen so far. -/
theorem fuzzySearchPartScan_spec (f : Nat → Nat × List Nat) (str : List Nat) :
    ∀ (n i : Nat) (st : Option (Nat × Int)),
    (st = none → ∀ j, j < i → (fuzzy_score (f j).1 (f j).2 str).1 = false) →
    (∀ b smax, st = some (b, smax) → b < i ∧
      (fuzzy_score (f b).1 (f b).2 str).1 = true ∧
      (fuzzy_score (f b).1 (f b).2 str).2 = smax ∧
      (∀ j, j < i → (fuzzy_score (f j).1 (f j).2 str).1 = true →
        (fuzzy_score (f j).1 (f j).2 str).2 ≤ smax) ∧
      (∀ j, j < b → (fuzzy_score (f j).1 (f j).2 str).1 = true →
        (fuzzy_score (f j).1 (f j).2 str).2 < smax)) →
    ((fuzzySearchPartScan f str n i st = none →
      ∀ j, j < i + n → (fuzzy_score (f j).1 (f j).2 str).1 = false) ∧
    (∀ b smax, fuzzySearchPartScan f str n i st = some (b, smax) →
      b < i + n ∧
      (fuzzy_score (f b).1 (f b).2 str).1 = true ∧
      (fuzzy_score (f b).1 (f b).2 str).2 = smax ∧
      (∀ j, j < i + n → (fuzzy_score (f j).1 (f j).2 str).1 = true →
        (fuzzy_score (f j).1 (f j).2 str).2 ≤ smax) ∧
      (∀ j, j < b → (fuzzy_score (f j).1 (f j).2 str).1 = true →
        (fuzzy_score (f j).1 (f j).2 str).2 < smax))) := by
  intro n
  induction n with
  | zero =>
    intro i st hnone hsome
    constructor
    · intro h j hj
      exact hnone h j (by omega)
    · intro b smax h
      have := hsome b smax h
      simpa using this
  | succ n ih =>
    intro i st hnone hsome
    cases st with
    | none =>
      rw [fuzzySearchPartScan_succ_none]
      by_cases hm : (fuzzy_score (f i).1 (f i).2 str).1 = true
      · rw [if_pos hm]
        have hnext := ih (i + 1)
          (some (i, (fuzzy_score (f i).1 (f i).2 str).2))
          (by intro h; simp at h)
          (by
            intro b smax h
            simp only [Option.some.injEq, Prod.mk.injEq] at h
            refine ⟨by omega, ?_, ?_, ?_, ?_⟩
            · rw [← h.1]; exact hm
            · rw [← h.1, h.2]
            · intro j hj hmj
              rcases Nat.lt_or_ge j i with h2 | h2
              · exact absurd hmj (by simp [hnone rfl j h2])
              · have : j = i := by omega
                subst this
                rw [← h.2]
            · intro j hj hmj
              rw [← h.1] at hj
              exact absurd hmj (by simp [hnone rfl j hj]))
        constructor
        · intro h j hj
          exact (hnext.1 h) j (by omega)
        · intro b smax h
          have := hnext.2 b smax h
          refine ⟨by omega, this.2.1, this.2.2.1, ?_, this.2.2.2.2⟩
          intro j hj
          exact this.2.2.2.1 j (by omega)
      · rw [if_neg hm]
        have hnext := ih (i + 1) none
          (by
            intro _ j hj
            rcases Nat.lt_or_ge j i with h2 | h2
            · exact hnone rfl j h2
            · have : j = i := by omega
              subst this
              simpa using hm)
          (by intro b smax h; simp at h)
        constructor
        · intro h j hj
          exact (hnext.1 h) j (by omega)
        · intro b smax h
          have := hnext.2 b smax h
          refine ⟨by omega, this.2.1, this.2.2.1, ?_, this.2.2.2.2⟩
          intro j hj
          exact this.2.2.2.1 j (by omega)
    | some s =>
      rcases s with ⟨b0, smax0⟩
      rw [fuzzySearchPartScan_succ_some]
      rcases hsome b0 smax0 rfl with ⟨hb0, hm0, hs0, hle0, hlt0⟩
      by_cases hc : (fuzzy_score (f i).1 (f i).2 str).1 = true ∧
          smax0 < (fuzzy_score (f i).1 (f i).2 str).2
      · rw [if_pos hc]
        have hnext := ih (i + 1)
          (some (i, (fuzzy_score (f i).1 (f i).2 str).2))
          (by intro h; simp at h)
          (by
            intro b smax h
            simp only [Option.some.injEq, Prod.mk.injEq] at h
            refine ⟨by omega, ?_, ?_, ?_, ?_⟩
            · rw [← h.1]; exact hc.1
            · rw [← h.1, h.2]
            · intro j hj hmj
              rcases Nat.lt_or_ge j i with h2 | h2
              · have := hle0 j h2 hmj
                have := hc.2
                omega
              · have : j = i := by omega
                subst this
                rw [← h.2]
            · intro j hj hmj
              rw [← h.1] at hj
              have := hle0 j hj hmj
              have := hc.2
              omega)
        constructor
        · intro h j hj
          exact (hnext.1 h) j (by omega)
        · intro b smax h
          have := hnext.2 b smax h
          refine ⟨by omega, this.2.1, this.2.2.1, ?_, this.2.2.2.2⟩
          intro j hj
          exact this.2.2.2.1 j (by omega)
      · rw [if_neg hc]
        have hnext := ih (i + 1) (some (b0, smax0))
          (by intro h; simp at h)
          (by
            intro b smax h
            simp only [Option.some.injEq, Prod.mk.injEq] at h
            rw [← h.1, ← h.2]
            refine ⟨by omega, hm0, hs0, ?_, hlt0⟩
            intro j hj hmj
            rcases Nat.lt_or_ge j i with h2 | h2
            · exact hle0 j h2 hmj
            · have : j = i := by omega
              subst this
              by_contra hgt
              exact hc ⟨hmj, by omega⟩)
        constructor
        · intro h j hj
          exact (hnext.1 h) j (by omega)
        · intro b smax h
          have := hnext.2 b smax h
          refine ⟨by omega, this.2.1, this.2.2.1, ?_, this.2.2.2.2⟩
          intro j hj
          exact this.2.2.2.1 j (by omega)

/-- C6 (confirmed): when at least one candidate matches, the score-only
selector `fuzzy_search` returns the earliest index among those achieving the
maximum score. -/
theorem claim_C6 (count : Nat) (f : Nat → Nat × List Nat) (str : List Nat)
    (hex : ∃ j, j < count ∧ (fuzzy_score (f j).1 (f j).2 str).1 = true) :
    ∃ b : Nat, fuzzy_search count f str = (b : Int) ∧ b < count ∧
      (fuzzy_score (f b).1 (f b).2 str).1 = true ∧
      (∀ j, j < count → (fuzzy_score (f j).1 (f j).2 str).1 = true →
        (fuzzy_score (f j).1 (f j).2 str).2 ≤
          (fuzzy_score (f b).1 (f b).2 str).2) ∧
      (∀ j, j < b → (fuzzy_score (f j).1 (f j).2 str).1 = true →
        (fuzzy_score (f j).1 (f j).2 str).2 <
          (fuzzy_score (f b).1 (f b).2 str).2) := by
  have hspec := fuzzySearchPartScan_spec f str count 0 none
    (by intro _ j hj; omega)
    (by intro b smax h; simp at h)
  unfold fuzzy_search
  cases hscan : fuzzySearchPartScan f str count 0 none with
  | none =>
    exfalso
    rcases hex with ⟨j, hj, hmj⟩
    have := hspec.1 hscan j (by omega)
    rw [this] at hmj
    exact Bool.noConfusion hmj
  | some s =>
    rcases s with ⟨b, smax⟩
    rcases hspec.2 b smax hscan with ⟨hb, hm, hs, hle, hlt⟩
    refine ⟨b, rfl, by omega, hm, ?_, ?_⟩
    · intro j hj hmj
      rw [hs]
      exact hle j (by omega) hmj
    · intro j hj hmj
      rw [hs]
      exact hlt j hj hmj

/-- C6 witness: a single matching candidate is selected. -/
theorem claim_C6_witness :
    (∃ j, j < 1 ∧
      (fuzzy_score ((fun _ => (0, [97])) j).1 ((fun _ => (0, [97])) j).2
        [97]).1 = true) ∧
    (∃ b : Nat, fuzzy_search 1 (fun _ => (0, [97])) [97] = (b : Int) ∧
      b < 1 ∧
      (fuzzy_score ((fun _ => ((0 : Nat), [97])) b).1
        ((fun _ => ((0 : Nat), [97])) b).2 [97]).1 = true ∧
      (∀ j, j < 1 →
        (fuzzy_score ((fun _ => ((0 : Nat), [97])) j).1
          ((fun _ => ((0 : Nat), [97])) j).2 [97]).1 = true →
        (fuzzy_score ((fun _ => ((0 : Nat), [97])) j).1
          ((fun _ => ((0 : Nat), [97])) j).2 [97]).2 ≤
          (fuzzy_score ((fun _ => ((0 : Nat), [97])) b).1
            ((fun _ => ((0 : Nat), [97])) b).2 [97]).2) ∧
      (∀ j, j < b →
        (fuzzy_score ((fun _ => ((0 : Nat), [97])) j).1
          ((fun _ => ((0 : Nat), [97])) j).2 [97]).1 = true →
        (fuzzy_score ((fun _ => ((0 : Nat), [97])) j).1
          ((fun _ => ((0 : Nat), [97])) j).2 [97]).2 <
          (fuzzy_score ((fun _ => ((0 : Nat), [97])) b).1
            ((fun _ => ((0 : Nat), [97])) b).2 [97]).2)) :=
  ⟨⟨0, by decide, by decide⟩,
    claim_C6 1 (fun _ => (0, [97])) [97] ⟨0, by decide, by decide⟩⟩

/-! ### The single-pass scorer's consecutive-run bonus (C9) -/

theorem fuzzyScoreGo_eq_flat : ∀ (s1 s2 : List Nat) (prev c : Nat)
    (maxe sc : Int), c ≤ 1 →
    fuzzyScoreGo prev c maxe sc s1 s2 =
      fuzzyScoreGoFlat prev (decide (c = 1)) maxe sc s1 s2 := by
  intro s1
  induction s1 with
  | nil =>
    intro s2 prev c maxe sc _
    cases s2 <;> rfl
  | cons c1 r1 ih =>
    intro s2 prev c maxe sc hc
    cases s2 with
    | nil => rfl
    | cons c2 r2 =>
      simp only [fuzzyScoreGo, fuzzyScoreGoFlat]
      by_cases hm : c1 &&& 0xDF = c2 &&& 0xDF
      · rw [if_pos hm, if_pos hm]
        by_cases hs : sByte prev ≤ 32 ∨
            (c1 &&& 64 ≠ 0 ∧ r1.headD 0 &&& 64 = 0)
        · rw [if_pos hs, if_pos hs]
          exact ih r2 c1 1 maxe _ le_rfl
        · rw [if_neg hs, if_neg hs]
          have hx : ((c : Int)) * 5 = if decide (c = 1) = true then 5 else 0 := by
            interval_cases c <;> simp
          rw [hx]
          exact ih r2 c1 1 maxe _ le_rfl
      · rw [if_neg hm, if_neg hm]
        exact ih (c2 :: r2) c1 0 _ _ (by omega)

/-- C9 (corrected): the single-pass scorer is extensionally the flat-bonus
scorer — a matched pattern character that neither follows a separator nor is
word-leading contributes exactly +5 when the previous candidate character was
also matched and 0 otherwise; the per-character bonus within a contiguous run
is constant, it does not grow with the run length (the source resets
`consecutive` to 1 instead of incrementing it). -/
theorem claim_C9 (pre : Nat) (str1 str2 : List Nat) :
    fuzzy_score pre str1 str2 = fuzzy_score_flat pre str1 str2 := by
  unfold fuzzy_score fuzzy_score_flat
  by_cases h : str2.isEmpty = true
  · rw [if_pos h, if_pos h]
  · rw [if_neg h, if_neg h]
    exact fuzzyScoreGo_eq_flat str1 str2 pre 0 0 0 (by omega)

/-- C9 counterexample: extending a contiguous run by one more character adds
exactly +5 each time — candidate "xab"/"xaab"/"xaaab" against patterns
"a"/"aa"/"aaa" score -1, 4, 9: the marginal bonus of the third consecutive
match equals that of the second (5 = 5), so the per-character bonus does not
grow with the run length. -/
theorem claim_C9_counterexample :
    fuzzy_score 0 [120, 97, 98] [97] = (true, -1) ∧
    fuzzy_score 0 [120, 97, 97, 98] [97, 97] = (true, 4) ∧
    fuzzy_score 0 [120, 97, 97, 97, 98] [97, 97, 97] = (true, 9) ∧
    (fuzzy_score 0 [120, 97, 97, 97, 98] [97, 97, 97]).2 -
      (fuzzy_score 0 [120, 97, 97, 98] [97, 97]).2 =
    (fuzzy_score 0 [120, 97, 97, 98] [97, 97]).2 -
      (fuzzy_score 0 [120, 97, 98] [97]).2 :=
  ⟨by decide, by decide, by decide, by decide⟩

/-! ### The filter/rank selector: stable descending order (C4) and index
validity (C10) -/

theorem insertDesc_perm (x : Nat × Int) : ∀ (l : List (Nat × Int)),
    List.Perm (insertDesc x l) (x :: l) := by
  intro l
  induction l with
  | nil => exact List.Perm.refl _
  | cons y ys ih =>
    unfold insertDesc
    by_cases h : x.2 < y.2
    · rw [if_pos h]
      exact (ih.cons y).trans (List.Perm.swap x y ys)
    · rw [if_neg h]

theorem SortFilterResultsDescending_perm : ∀ (l : List (Nat × Int)),
    List.Perm (SortFilterResultsDescending l) l := by
  intro l
  induction l with
  | nil => exact List.Perm.refl _
  | cons x xs ih =>
    unfold SortFilterResultsDescending
    exact (insertDesc_perm x _).trans (ih.cons x)

theorem insertDesc_pairwise (x : Nat × Int) : ∀ (l : List (Nat × Int)),
    l.Pairwise rankR → (∀ y ∈ l, x.2 = y.2 → x.1 < y.1) →
    (insertDesc x l).Pairwise rankR := by
  intro l
  induction l with
  | nil =>
    intro _ _
    simp [insertDesc, List.pairwise_cons]
  | cons y ys ih =>
    intro hp hx
    rcases List.pairwise_cons.mp hp with ⟨hy, hys⟩
    unfold insertDesc
    by_cases h : x.2 < y.2
    · rw [if_pos h]
      refine List.pairwise_cons.mpr ⟨?_, ?_⟩
      · intro z hz
        have hz2 : z ∈ x :: ys := (insertDesc_perm x ys).mem_iff.mp hz
        rcases List.mem_cons.mp hz2 with hz2 | hz2
        · subst hz2
          exact Or.inl h
        · exact hy z hz2
      · exact ih hys (fun z hz => hx z (List.mem_cons_of_mem y hz))
    · rw [if_neg h]
      refine List.pairwise_cons.mpr ⟨?_, hp⟩
      intro z hz
      rcases List.mem_cons.mp hz with hz | hz
      · subst hz
        rcases Int.lt_or_le z.2 x.2 with h2 | h2
        · exact Or.inl h2
        · have he : x.2 = z.2 := by omega
          exact Or.inr ⟨he, hx z (List.mem_cons_self z ys) he⟩
      · have hyz := hy z hz
        rcases Int.lt_or_le z.2 x.2 with h2 | h2
        · exact Or.inl h2
        · have he : x.2 = z.2 := by
            rcases hyz with h3 | h3
            · omega
            · omega
          exact Or.inr ⟨he, hx z (List.mem_cons_of_mem y hz) he⟩

theorem SortFilterResultsDescending_pairwise : ∀ (l : List (Nat × Int)),
    l.Pairwise (fun a b => a.1 < b.1) →
    (SortFilterResultsDescending l).Pairwise rankR := by
  intro l
  induction l with
  | nil => intro _; simp [SortFilterResultsDescending]
  | cons x xs ih =>
    intro hp
    rcases List.pairwise_cons.mp hp with ⟨hx, hxs⟩
    unfold SortFilterResultsDescending
    refine insertDesc_pairwise x _ (ih hxs) ?_
    intro y hy _
    exact hx y ((SortFilterResultsDescending_perm xs).mem_iff.mp hy)

theorem comboFilterScan_pairwise (count : Nat) (f : Nat → List Nat)
    (str : List Nat) :
    (comboFilterScan count f str).Pairwise (fun a b => a.1 < b.1) := by
  unfold comboFilterScan
  refine List.Pairwise.filterMap _ ?_ (List.pairwise_lt_range count)
  intro a a' hlt b hb b' hb'
  have hfst : ∀ (i : Nat) (e : Nat × Int),
      (if (FuzzySearchEX str (f i) 128).ok = true
        then some (i, (FuzzySearchEX str (f i) 128).score)
        else none) = some e → e.1 = i := by
    intro i e h
    by_cases hok : (FuzzySearchEX str (f i) 128).ok = true
    · rw [if_pos hok] at h
      cases h
      rfl
    · rw [if_neg hok] at h
      exact absurd h (by simp)
  rw [hfst a b hb, hfst a' b' hb']
  exact hlt

theorem comboFilterScan_fst_lt (count : Nat) (f : Nat → List Nat)
    (str : List Nat) :
    ∀ e ∈ comboFilterScan count f str, e.1 < count := by
  intro e he
  rcases List.mem_filterMap.mp he with ⟨i, hi, hg⟩
  by_cases hok : (FuzzySearchEX str (f i) 128).ok = true
  · simp only [if_pos hok] at hg
    cases hg
    exact List.mem_range.mp hi
  · simp only [if_neg hok] at hg
    exact absurd hg (by simp)

/-- C4 (confirmed, with the sort modelled from the spec): the filter/rank
selector's output is sorted by descending score, and entries with equal score
keep the relative order of their candidate indices. -/
theorem claim_C4 (count : Nat) (f : Nat → List Nat) (str : List Nat)
    (k l : Nat) (hkl : k < l)
    (hl : l < (DefaultComboFilterSearchCallback count f str).length) :
    ((DefaultComboFilterSearchCallback count f str).getD l (0, 0)).2 ≤
      ((DefaultComboFilterSearchCallback count f str).getD k (0, 0)).2 ∧
    (((DefaultComboFilterSearchCallback count f str).getD k (0, 0)).2 =
        ((DefaultComboFilterSearchCallback count f str).getD l (0, 0)).2 →
      ((DefaultComboFilterSearchCallback count f str).getD k (0, 0)).1 <
        ((DefaultComboFilterSearchCallback count f str).getD l (0, 0)).1) := by
  have hk : k < (DefaultComboFilterSearchCallback count f str).length := by
    omega
  have hpair : (DefaultComboFilterSearchCallback count f str).Pairwise rankR :=
    SortFilterResultsDescending_pairwise _
      (comboFilterScan_pairwise count f str)
  have hR := List.pairwise_iff_get.mp hpair ⟨k, hk⟩ ⟨l, hl⟩ hkl
  have hgk : (DefaultComboFilterSearchCallback count f str).getD k (0, 0) =
      (DefaultComboFilterSearchCallback count f str).get ⟨k, hk⟩ := by
    rw [List.getD_eq_getElem _ (0, 0) hk]
    rfl
  have hgl : (DefaultComboFilterSearchCallback count f str).getD l (0, 0) =
      (DefaultComboFilterSearchCallback count f str).get ⟨l, hl⟩ := by
    rw [List.getD_eq_getElem _ (0, 0) hl]
    rfl
  rw [hgk, hgl]
  rcases hR with h2 | h2
  · constructor
    · omega
    · intro he
      omega
  · exact ⟨le_of_eq h2.1.symm, fun _ => h2.2⟩

/-- C4 witness: two identical candidates "a" with pattern "a" tie on score
115 and keep their index order. -/
theorem claim_C4_witness :
    0 < 1 ∧
    1 < (DefaultComboFilterSearchCallback 2 (fun _ => [97]) [97]).length ∧
    (((DefaultComboFilterSearchCallback 2 (fun _ => [97]) [97]).getD 1
        (0, 0)).2 ≤
      ((DefaultComboFilterSearchCallback 2 (fun _ => [97]) [97]).getD 0
        (0, 0)).2 ∧
    (((DefaultComboFilterSearchCallback 2 (fun _ => [97]) [97]).getD 0
        (0, 0)).2 =
        ((DefaultComboFilterSearchCallback 2 (fun _ => [97]) [97]).getD 1
          (0, 0)).2 →
      ((DefaultComboFilterSearchCallback 2 (fun _ => [97]) [97]).getD 0
        (0, 0)).1 <
        ((DefaultComboFilterSearchCallback 2 (fun _ => [97]) [97]).getD 1
          (0, 0)).1)) :=
  ⟨by decide, by decide,
    claim_C4 2 (fun _ => [97]) [97] 0 1 (by decide) (by decide)⟩

/-! ### C10: selector results stay in range, filter indices are distinct -/

theorem autoScan_lt (f : Nat → List Nat) (str : List Nat) :
    ∀ (n i : Nat) (st : Option (Nat × Int × Nat)),
    (∀ b bs pmc, st = some (b, bs, pmc) → b < i) →
    ∀ b bs pmc, autoScan f str n i st = some (b, bs, pmc) → b < i + n := by
  intro n
  induction n with
  | zero =>
    intro i st hinv b bs pmc h
    have := hinv b bs pmc h
    omega
  | succ n ih =>
    intro i st hinv b bs pmc h
    cases st with
    | none =>
      rw [autoScan_succ_none] at h
      by_cases hok : (FuzzySearchEX str (f i) 128).ok = true
      · rw [if_pos hok] at h
        have := ih (i + 1) _ (by
          intro b' bs' pmc' h2
          simp only [Option.some.injEq, Prod.mk.injEq] at h2
          omega) b bs pmc h
        omega
      · rw [if_neg hok] at h
        have := ih (i + 1) _ (by intro b' bs' pmc' h2; simp at h2) b bs pmc h
        omega
    | some s =>
      rcases s with ⟨b0, bs0, pmc0⟩
      have hb0 : b0 < i := hinv b0 bs0 pmc0 rfl
      rw [autoScan_succ_some] at h
      by_cases hc : (FuzzySearchEX str (f i) 128).ok = true ∧
          ((bs0 < (FuzzySearchEX str (f i) 128).score ∧
            (FuzzySearchEX str (f i) 128).count ≤ pmc0) ∨
          ((FuzzySearchEX str (f i) 128).score = bs0 ∧
            pmc0 < (FuzzySearchEX str (f i) 128).count))
      · rw [if_pos hc] at h
        have := ih (i + 1) _ (by
          intro b' bs' pmc' h2
          simp only [Option.some.injEq, Prod.mk.injEq] at h2
          omega) b bs pmc h
        omega
      · rw [if_neg hc] at h
        have := ih (i + 1) _ (by
          intro b' bs' pmc' h2
          simp only [Option.some.injEq, Prod.mk.injEq] at h2
          omega) b bs pmc h
        omega

theorem fuzzySearchPartScan_lt (f : Nat → Nat × List Nat) (str : List Nat) :
    ∀ (n i : Nat) (st : Option (Nat × Int)),
    (∀ b smax, st = some (b, smax) → b < i) →
    ∀ b smax, fuzzySearchPartScan f str n i st = some (b, smax) →
      b < i + n := by
  intro n
  induction n with
  | zero =>
    intro i st hinv b smax h
    have := hinv b smax h
    omega
  | succ n ih =>
    intro i st hinv b smax h
    cases st with
    | none =>
      rw [fuzzySearchPartScan_succ_none] at h
      by_cases hok : (fuzzy_score (f i).1 (f i).2 str).1 = true
      · rw [if_pos hok] at h
        have := ih (i + 1) _ (by
          intro b' smax' h2
          simp only [Option.some.injEq, Prod.mk.injEq] at h2
          omega) b smax h
        omega
      · rw [if_neg hok] at h
        have := ih (i + 1) _ (by intro b' smax' h2; simp at h2) b smax h
        omega
    | some s =>
      rcases s with ⟨b0, smax0⟩
      have hb0 : b0 < i := hinv b0 smax0 rfl
      rw [fuzzySearchPartScan_succ_some] at h
      by_cases hc : (fuzzy_score (f i).1 (f i).2 str).1 = true ∧
          smax0 < (fuzzy_score (f i).1 (f i).2 str).2
      · rw [if_pos hc] at h
        have := ih (i + 1) _ (by
          intro b' smax' h2
          simp only [Option.some.injEq, Prod.mk.injEq] at h2
          omega) b smax h
        omega
      · rw [if_neg hc] at h
        have := ih (i + 1) _ (by
          intro b' smax' h2
          simp only [Option.some.injEq, Prod.mk.injEq] at h2
          omega) b smax h
        omega

/-- C10 (confirmed): both single-best selectors return -1 or an index in
`[0, count)`, and the filter callback's entries carry pairwise distinct
indices in `[0, count)`. -/
theorem claim_C10 (count : Nat) (f : Nat → List Nat)
    (g : Nat → Nat × List Nat) (str : List Nat) :
    (DefaultAutoSelectSearchCallback count f str = -1 ∨
      (0 ≤ DefaultAutoSelectSearchCallback count f str ∧
        DefaultAutoSelectSearchCallback count f str < (count : Int))) ∧
    (fuzzy_search count g str = -1 ∨
      (0 ≤ fuzzy_search count g str ∧
        fuzzy_search count g str < (count : Int))) ∧
    ((DefaultComboFilterSearchCallback count f str).map Prod.fst).Nodup ∧
    (DefaultComboFilterSearchCallback count f str).all
      (fun e => decide (e.1 < count)) = true := by
  refine ⟨?_, ?_, ?_, ?_⟩
  · by_cases h : str = []
    · unfold DefaultAutoSelectSearchCallback
      rw [if_pos h]
      exact Or.inl rfl
    · cases hscan : autoScan f str count 0 none with
      | none =>
        unfold DefaultAutoSelectSearchCallback
        rw [if_neg h, hscan]
        exact Or.inl rfl
      | some s =>
        rcases s with ⟨b, bs, pmc⟩
        have hblt := autoScan_lt f str count 0 none
          (by intro b' bs' pmc' h2; simp at h2) b bs pmc hscan
        unfold DefaultAutoSelectSearchCallback
        rw [if_neg h, hscan]
        refine Or.inr ⟨?_, ?_⟩
        · show (0 : Int) ≤ (b : Int)
          omega
        · show (b : Int) < (count : Int)
          omega
  · cases hscan : fuzzySearchPartScan g str count 0 none with
    | none =>
      unfold fuzzy_search
      rw [hscan]
      exact Or.inl rfl
    | some s =>
      rcases s with ⟨b, smax⟩
      have hblt := fuzzySearchPartScan_lt g str count 0 none
        (by intro b' smax' h2; simp at h2) b smax hscan
      unfold fuzzy_search
      rw [hscan]
      refine Or.inr ⟨?_, ?_⟩
      · show (0 : Int) ≤ (b : Int)
        omega
      · show (b : Int) < (count : Int)
        omega
  · have hperm := SortFilterResultsDescending_perm (comboFilterScan count f str)
    have hnd : ((comboFilterScan count f str).map Prod.fst).Nodup := by
      have := (List.pairwise_map).mpr (comboFilterScan_pairwise count f str)
      exact this.imp Nat.ne_of_lt
    exact (hperm.map Prod.fst).symm.nodup hnd
  · rw [List.all_eq_true]
    intro e he
    have hperm := SortFilterResultsDescending_perm (comboFilterScan count f str)
    have := comboFilterScan_fst_lt count f str e (hperm.mem_iff.mp he)
    simpa using this

end ComboFilter
